import Mathlib

/-! CitationGraph: a shallow embedding of `src/CitationGraph.h`

The C++ container keeps publications in heap-allocated `Node`s.  A node owns
the nodes that cite it (`children`, a `std::set` of `std::shared_ptr`) and keeps
non-owning back references to the nodes it cites (`parents`, a `std::set` of
`std::weak_ptr`).  The index `mapGraph` is a `std::map` from identifiers to
`std::weak_ptr<Node>`; a node erases its own entry in its destructor.

Modelling decisions.

* Identifiers are natural numbers (`Publication::id_type` is a template
  parameter of the source).
* A node is identified by the number of its allocation (`Addr`).  The control
  block of a `shared_ptr` outlives the node for as long as a `weak_ptr` still
  refers to it, so a pointer that is still stored anywhere is never confused
  with a later allocation; the embedding therefore hands out a fresh number
  for every `new Node`.  `std::owner_less` orders by control block, which the
  embedding takes to be allocation order.
* `std::shared_ptr` is modelled by its meaning: a node is destroyed when the
  last owning pointer to it goes away.  Owning pointers are the `root` member,
  the elements of the `children` sets of live nodes, and the pointers whose
  release is still pending while a destructor cascade runs.
* A destroyed node is absent from `heap`; `weak_ptr::lock()` on it yields null.
* Dereferencing a null pointer or a past-the-end iterator, and incrementing an
  iterator whose element has been erased, are undefined behaviour in C++; the
  embedding reports them as `Result.undefined`.
* In `create`, `add_citation` and `remove` memory allocation is assumed to
  succeed (no `std::bad_alloc`), and `Reachable` follows these.  The
  `catch (...)` blocks of the source are embedded separately, in
  `createFailing`, `add_citationFailing` and `removeFailing`, which say at
  which point the allocation fails.
-/

namespace CG

/-- Publication identifiers (`Publication::id_type`). -/
abbrev Id := Nat

/-- Node addresses: the allocation number of the node's control block. -/
abbrev Addr := Nat

/-- The exceptions the operations can raise. -/
inductive Exn where
  | PublicationNotFound
  | PublicationAlreadyCreated
  | TriedToRemoveRoot
  | bad_weak_ptr
  | bad_alloc
  deriving DecidableEq, Repr

/-- Embedding of `CitationGraph::Node` (lines 44-69): `pub` is the identifier of the
publication, `children` the set of owning pointers, `parents` the set of weak
pointers, `it` the key of the index entry the stored iterator designates. -/
structure Node where
  pub : Id
  children : List Addr
  parents : List Addr
  it : Id
  setedIterator : Bool
  deriving DecidableEq, Repr

/-- Embedding of the container (lines 41-42) together with the heap its pointers
refer to.  `next` is the number the next allocation receives. -/
structure CitationGraph where
  mapGraph : Id → Option Addr
  root : Addr
  heap : Addr → Option Node
  next : Addr

/-- Outcome of a call: it returns a value, raises an exception (both with the
state the container is left in), runs into undefined behaviour, or the
destructor cascade exceeds its step budget (shown below never to happen). -/
inductive Result (α : Type) where
  | returned (v : α) (g : CitationGraph)
  | raised (e : Exn) (g : CitationGraph)
  | undefined
  | fuelExhausted

/-- The state a call leaves behind, when it leaves one. -/
def Result.post {α : Type} : Result α → Option CitationGraph
  | .returned _ g => some g
  | .raised _ g => some g
  | .undefined => none
  | .fuelExhausted => none

/-- The value a call returns, when it returns. -/
def Result.val {α : Type} : Result α → Option α
  | .returned v _ => some v
  | _ => none

/-- Insertion into a `std::set` ordered by address: nothing happens when the
element is already present. -/
def setInsert (a : Addr) (s : List Addr) : List Addr :=
  if a ∈ s then s else List.orderedInsert (fun x y => x ≤ y) a s

/-- Erasure by key from a `std::set`. -/
def setErase (a : Addr) (s : List Addr) : List Addr :=
  s.filter (fun b => decide (b ≠ a))

/-- Overwrites the node stored at an address. -/
def setNode (g : CitationGraph) (a : Addr) (n : Node) : CitationGraph :=
  { g with heap := Function.update g.heap a (some n) }

/-- Constructor `Node(stem_id, map)` (lines 54-57).  The source initialises `it`
with `map->begin()`, which is never read while `setedIterator` is false; the
embedding stores the node's own key there. -/
def Node.new (stem_id : Id) : Node :=
  { pub := stem_id, children := [], parents := [], it := stem_id, setedIterator := false }

/-- Embedding of `Node::setIterator` (lines 61-64). -/
def Node.setIterator (n : Node) (myPlace : Id) : Node :=
  { n with it := myPlace, setedIterator := true }

/-- Embedding of `~Node` (lines 59 and 67) up to the release of the members: the node
erases its index entry through its iterator and ceases to exist.  Its
`children` are released by `destroyLoop`. -/
def deleteYourselfFromMap (g : CitationGraph) (a : Addr) (n : Node) : CitationGraph :=
  { g with
    mapGraph := if n.setedIterator then Function.update g.mapGraph n.it none else g.mapGraph
    heap := Function.update g.heap a none }

/-- Whether an owning pointer to `a` remains: the `root` member, a release still
pending, or the `children` set of a live node. -/
def owned (g : CitationGraph) (pending : List Addr) (a : Addr) : Bool :=
  decide (g.root = a) || decide (a ∈ pending) ||
    (List.range g.next).any (fun b =>
      match g.heap b with
      | some n => decide (a ∈ n.children)
      | none => false)

/-- Releases the owning pointers listed in the work list, one after the other.
Releasing the last owner of a node destroys the node, which releases the
elements of its `children` set in turn (depth first, as the nested destructor
calls do). -/
def destroyLoop : Nat → List Addr → CitationGraph → Option CitationGraph
  | _, [], g => some g
  | 0, _ :: _, _ => none
  | fuel + 1, a :: rest, g =>
    if owned g rest a then destroyLoop fuel rest g
    else
      match g.heap a with
      | none => destroyLoop fuel rest g
      | some n => destroyLoop fuel (n.children ++ rest) (deleteYourselfFromMap g a n)

/-- Number of owning pointers stored in `children` sets of the nodes below `k`. -/
def edgeCount (g : CitationGraph) (k : Nat) : Nat :=
  ((List.range k).map (fun b =>
    match g.heap b with
    | some n => n.children.length
    | none => 0)).sum

/-- Step budget of a cascade: every step consumes one pending release or one
stored owning pointer. -/
def releaseFuel (g : CitationGraph) (work : List Addr) : Nat :=
  work.length + edgeCount g g.next

/-- Destruction of the owning pointers in `work` (end of scope of a local
`shared_ptr`). -/
def release (work : List Addr) (g : CitationGraph) : Option CitationGraph :=
  destroyLoop (releaseFuel g work) work g

/-- Constructor `CitationGraph(stem_id)` (lines 72-85). -/
def construct (stem_id : Id) : CitationGraph :=
  { mapGraph := Function.update (fun _ => none) stem_id (some 0)
    root := 0
    heap := Function.update (fun _ => none) 0 (some ((Node.new stem_id).setIterator stem_id))
    next := 1 }

/-- Embedding of `exists` (lines 143-145). -/
def exists_ (g : CitationGraph) (id : Id) : Bool :=
  (g.mapGraph id).isSome

/-- Embedding of `get_root_id` (lines 101-103): `root->pub.get_id()`. -/
def get_root_id (g : CitationGraph) : Option Id :=
  (g.heap g.root).map Node.pub

/-- Reads `->pub.get_id()` through each pointer of a set in turn; `none` when one of
them does not refer to a live node. -/
def pubs (g : CitationGraph) : List Addr → Option (List Id)
  | [] => some []
  | c :: cs =>
    match g.heap c, pubs g cs with
    | some n, some ids => some (n.pub :: ids)
    | _, _ => none

/-- Embedding of `get_children` (lines 105-121). -/
def get_children (g : CitationGraph) (id : Id) : Result (List Id) :=
  match g.mapGraph id with
  | none => .raised .PublicationNotFound g
  | some a =>
    match g.heap a with
    | none => .raised .bad_weak_ptr g
    | some n =>
      match pubs g n.children with
      | none => .undefined
      | some ids => .returned ids g

/-- Embedding of `get_parents` (lines 123-141).  The loop of lines 132-138 collects the
identifier of every parent whose `lock()` is not null.  On an expired parent
it erases the set element the range-for iterator stands on (line 135) and then
increments that iterator, which is undefined behaviour; so the call is
undefined as soon as one back reference of the node has expired, and
otherwise returns without changing anything. -/
def get_parents (g : CitationGraph) (id : Id) : Result (List Id) :=
  match g.mapGraph id with
  | none => .raised .PublicationNotFound g
  | some a =>
    match g.heap a with
    | none => .undefined
    | some n =>
      match pubs g n.parents with
      | none => .undefined
      | some ids => .returned ids g

/-- Loop of lines 182-183 of `create`: the new node `a` is inserted into the `children`
of each parent; `none` when `ptr.lock()` is null. -/
def linkChildren (a : Addr) : List Addr → CitationGraph → Option CitationGraph
  | [], g => some g
  | p :: ps, g =>
    match g.heap p with
    | none => none
    | some n => linkChildren a ps (setNode g p { n with children := setInsert a n.children })

/-- The node built by `create` (lines 167-177): constructed, `parents` filled from the
parent pointers, iterator set. -/
def createNode (id : Id) (parentPtrs : List Addr) : Node :=
  ({ Node.new id with
    parents := parentPtrs.foldl (fun s p => setInsert p s) [] } : Node).setIterator id

/-- The state of `create` after lines 167-177: the new node is allocated with its
`parents` set filled and registered in the index. -/
def createAlloc (g : CitationGraph) (id : Id) (parentPtrs : List Addr) : CitationGraph :=
  { mapGraph := Function.update g.mapGraph id (some g.next)
    root := g.root
    heap := Function.update g.heap g.next (some (createNode id parentPtrs))
    next := g.next + 1 }

/-- Embedding of `create(id, parent_ids)` (lines 156-203).  After the checks of lines 158-165
every `mapGraph->at(parent)` finds its entry, so the pointers of lines 170-174 are the
entries of the identifiers in order. -/
def create (g : CitationGraph) (id : Id) (parent_ids : List Id) : Result Unit :=
  if exists_ g id then .raised .PublicationAlreadyCreated g
  else if parent_ids.all (fun p => exists_ g p) then
    let a := g.next
    let parentPtrs := parent_ids.filterMap g.mapGraph
    let g1 := createAlloc g id parentPtrs
    match linkChildren a parentPtrs g1 with
    | none => .undefined
    | some g2 =>
      match release [a] g2 with
      | none => .fuelExhausted
      | some g3 => .returned () g3
  else .raised .PublicationNotFound g

/-- Embedding of `create(id, parent_id)` (lines 205-208). -/
def create1 (g : CitationGraph) (id : Id) (parent_id : Id) : Result Unit :=
  create g id [parent_id]

/-- Embedding of `add_citation` (lines 210-233). -/
def add_citation (g : CitationGraph) (child_id parent_id : Id) : Result Unit :=
  match g.mapGraph child_id with
  | none => .raised .PublicationNotFound g
  | some c =>
    match g.mapGraph parent_id with
    | none => .raised .PublicationNotFound g
    | some p =>
      match g.heap c with
      | none => .raised .bad_weak_ptr g
      | some cn =>
        let g1 := setNode g c { cn with parents := setInsert p cn.parents }
        match g1.heap p with
        | none => .undefined
        | some pn => .returned () (setNode g1 p { pn with children := setInsert c pn.children })

/-- Loop of lines 248-256 of `remove`: the node `a` is searched in and erased from the
`children` of each of its parents; `none` when `parent.lock()` is null or
when the search runs past the end of the set. -/
def removeLoop (a : Addr) : List Addr → CitationGraph → Option CitationGraph
  | [], g => some g
  | p :: ps, g =>
    match g.heap p with
    | none => none
    | some n =>
      if a ∈ n.children then
        removeLoop a ps (setNode g p { n with children := setErase a n.children })
      else none

/-- Embedding of `remove` (lines 235-270). -/
def remove (g : CitationGraph) (id : Id) : Result Unit :=
  match g.mapGraph id with
  | none => .raised .PublicationNotFound g
  | some a =>
    match g.heap a with
    | none => .raised .bad_weak_ptr g
    | some n =>
      if a = g.root then .raised .TriedToRemoveRoot g
      else
        match removeLoop a n.parents g with
        | none => .undefined
        | some g1 =>
          match release [a] g1 with
          | none => .fuelExhausted
          | some g2 => .returned () g2

/-- States the container can be in: freshly constructed, or left behind by a call
of `create`, `add_citation`, `remove` or `get_parents` on such a state. -/
inductive Reachable : CitationGraph → Prop where
  | construct (stem_id : Id) : Reachable (construct stem_id)
  | create {g g' : CitationGraph} (id : Id) (parent_ids : List Id) :
      Reachable g → (create g id parent_ids).post = some g' → Reachable g'
  | add_citation {g g' : CitationGraph} (child_id parent_id : Id) :
      Reachable g → (add_citation g child_id parent_id).post = some g' → Reachable g'
  | remove {g g' : CitationGraph} (id : Id) :
      Reachable g → (remove g id).post = some g' → Reachable g'
  | get_parents {g g' : CitationGraph} (id : Id) :
      Reachable g → (get_parents g id).post = some g' → Reachable g'

/-- The state in which the `children` and `parents` sets of every live node `x`
have been replaced by `C x` and `P x` of them. -/
def reedge (g : CitationGraph) (C P : Addr → List Addr → List Addr) : CitationGraph :=
  { g with
    heap := fun x => (g.heap x).map (fun n =>
      { n with children := C x n.children, parents := P x n.parents }) }

/-- Ownership edge: the live node `b` holds an owning pointer to `c`. -/
def Edge (g : CitationGraph) (b c : Addr) : Prop :=
  ∃ m, g.heap b = some m ∧ c ∈ m.children

/-- Well-formedness of a state while the releases in `work` are pending.  With an
empty work list this is the representation invariant of the container. -/
structure LInv (work : List Addr) (g : CitationGraph) : Prop where
  bound : ∀ a n, g.heap a = some n → a < g.next
  map_live : ∀ i a, g.mapGraph i = some a → ∃ n, g.heap a = some n ∧ n.pub = i
  live_map : ∀ a n, g.heap a = some n →
    g.mapGraph n.pub = some a ∧ n.it = n.pub ∧ n.setedIterator = true
  root_live : ∃ n, g.heap g.root = some n
  child_live : ∀ b m c, g.heap b = some m → c ∈ m.children →
    ∃ k, g.heap c = some k ∧ b ∈ k.parents
  parent_sym : ∀ x n p m, g.heap x = some n → p ∈ n.parents → g.heap p = some m →
    x ∈ m.children ∨ (g.root ≠ x ∧ ∀ b, ¬ Edge g b x)
  owner : ∀ a n, g.heap a = some n → g.root = a ∨ a ∈ work ∨ ∃ b, Edge g b a
  nodup_children : ∀ a n, g.heap a = some n → n.children.Nodup
  nodup_parents : ∀ a n, g.heap a = some n → n.parents.Nodup
  parents_bound : ∀ a n p, g.heap a = some n → p ∈ n.parents → p < g.next

/-- The representation invariant of the container. -/
abbrev Inv (g : CitationGraph) : Prop := LInv [] g

/-- Edge sets after `add_citation`: `c` joins the children of `p`. -/
def addC (c p : Addr) : Addr → List Addr → List Addr :=
  fun x s => if x = p then setInsert c s else s

/-- Edge sets after `add_citation`: `p` joins the parents of `c`. -/
def addP (c p : Addr) : Addr → List Addr → List Addr :=
  fun x s => if x = c then setInsert p s else s

/-- Edge sets after the linking loop of `create`: `a` joins the children of every
node in `ps`. -/
def linkC (a : Addr) (ps : List Addr) : Addr → List Addr → List Addr :=
  fun x s => if x ∈ ps then setInsert a s else s

/-- Edge sets after the loop of `remove`: `a` leaves the children of every node in
`ps`. -/
def unlinkC (a : Addr) (ps : List Addr) : Addr → List Addr → List Addr :=
  fun x s => if x ∈ ps then setErase a s else s

/-- Identifiers read through the pointers of a set, skipping expired ones. -/
def idsOf (g : CitationGraph) (l : List Addr) : List Id :=
  l.filterMap (fun p => (g.heap p).map Node.pub)

/-- The state a call leaves behind, or `g0` when it leaves none. -/
def Result.state {α : Type} (r : Result α) (g0 : CitationGraph) : CitationGraph :=
  r.post.getD g0

/-- Example: the fresh graph with root `0` (the root "R" of the specification's
scenario). -/
def exR : CitationGraph := construct 0

/-- Example: `1` ("A") cites the root. -/
def exRA : CitationGraph := (create exR 1 [0]).state exR

/-- Example: `2` ("B") cites the root as well. -/
def exRAB : CitationGraph := (create exRA 2 [0]).state exR

/-- Example: `3` ("C") cites `1` and `2`. -/
def exRABC : CitationGraph := (create exRAB 3 [1, 2]).state exR

/-- Example: the state after `remove(1)` on `exRABC`. -/
def exRBC : CitationGraph := (remove exRABC 1).state exR

/-- One `get_children` step: `y` is among the identifiers `get_children(x)` returns. -/
def ChildStep (g : CitationGraph) (x y : Id) : Prop :=
  ∃ l, (get_children g x).val = some l ∧ y ∈ l

/-- No publication reaches itself through a chain of `get_children` steps. -/
def Acyclic (g : CitationGraph) : Prop :=
  ∀ x, ¬ Relation.TransGen (ChildStep g) x x

/-- The identifier stored in the node at `a` (`0` when there is none). -/
def pubAt (g : CitationGraph) (a : Addr) : Id :=
  ((g.heap a).map Node.pub).getD 0

/-- Big-step description of a destructor cascade: `Cascade work g g'` holds when
releasing the owning pointers in `work` turns `g` into `g'`. -/
inductive Cascade : List Addr → CitationGraph → CitationGraph → Prop where
  | done (g : CitationGraph) : Cascade [] g g
  | skip {a : Addr} {rest : List Addr} {g g' : CitationGraph} :
      owned g rest a = true ∨ g.heap a = none → Cascade rest g g' → Cascade (a :: rest) g g'
  | destroy {a : Addr} {rest : List Addr} {g g' : CitationGraph} {n : Node} :
      owned g rest a = false → g.heap a = some n →
      Cascade (n.children ++ rest) (deleteYourselfFromMap g a n) g' →
      Cascade (a :: rest) g g'

/-- The identifier `y` is reachable from the root by a chain of `get_children`
steps. -/
def ReachableFromRoot (g : CitationGraph) (y : Id) : Prop :=
  ∃ r, get_root_id g = some r ∧ Relation.ReflTransGen (ChildStep g) r y

/-- A call of `create`, `add_citation`, `remove` or `get_parents`. -/
inductive Call where
  | create (id : Id) (parent_ids : List Id)
  | add_citation (child_id parent_id : Id)
  | remove (id : Id)
  | get_parents (id : Id)

/-- The state a call leaves behind, when it leaves one. -/
def Call.run (g : CitationGraph) : Call → Option CitationGraph
  | .create id parent_ids => (CG.create g id parent_ids).post
  | .add_citation child_id parent_id => (CG.add_citation g child_id parent_id).post
  | .remove id => (CG.remove g id).post
  | .get_parents id => (CG.get_parents g id).post

/-- The call is an `add_citation` whose child is the root. -/
def Call.childIsRoot (g : CitationGraph) : Call → Prop
  | .add_citation child_id _ => get_root_id g = some child_id
  | _ => False

/-- States reachable from the graph constructed with root identifier `r`. -/
inductive ReachableFrom (r : Id) : CitationGraph → Prop where
  | construct : ReachableFrom r (construct r)
  | call {g g' : CitationGraph} (c : Call) :
      ReachableFrom r g → c.run g = some g' → ReachableFrom r g'

/-- States reachable without ever calling `add_citation` with the root as the
child. -/
inductive ReachableRootUncited : CitationGraph → Prop where
  | construct (stem_id : Id) : ReachableRootUncited (construct stem_id)
  | call {g g' : CitationGraph} (c : Call) :
      ReachableRootUncited g → ¬ c.childIsRoot g → c.run g = some g' →
      ReachableRootUncited g'

/-- Example: the root `0` is made to cite `1`, which cites the root. -/
def exRootCites : CitationGraph := (add_citation exRA 0 1).state exR

/-- Example: a chain `0`, `1`, `2`, `3`, each citing the one before. -/
def exChain : CitationGraph :=
  (create ((create exRA 2 [1]).state exR) 3 [2]).state exR

/-- Example: in the chain, `2` is made to cite `3` as well, which closes a cycle
between `2` and `3`. -/
def exCycle : CitationGraph := (add_citation exChain 2 3).state exR

/-- Example: the state after `remove(1)` on `exCycle`. -/
def exLeak : CitationGraph := (remove exCycle 1).state exR

/-- Embedding of `remove` (lines 235-270) when `backUp.emplace_back` (line 254) throws
`std::bad_alloc` in the loop iteration for parent number `k`, counted from `0`.
The node has then been erased from the `children` of the first `k` parents
and `backUp` holds `k` copies of `*set_iterator`, which is the pointer to the
node itself.  The handler (lines 259-267) inserts the node into
`father->children` for every `father` in `backUp`, and the exception
propagates.  With no parent number `k` nothing throws and the call is
`remove`. -/
def removeFailing (g : CitationGraph) (id : Id) (k : Nat) : Result Unit :=
  match g.mapGraph id with
  | none => .raised .PublicationNotFound g
  | some a =>
    match g.heap a with
    | none => .raised .bad_weak_ptr g
    | some n =>
      if a = g.root then .raised .TriedToRemoveRoot g
      else
        match n.parents[k]? with
        | none => remove g id
        | some p =>
          match removeLoop a (n.parents.take k) g with
          | none => .undefined
          | some g1 =>
            match g1.heap p with
            | none => .undefined
            | some pn =>
              if a ∈ pn.children then
                let backUp := List.replicate k a
                match linkChildren a backUp g1 with
                | none => .undefined
                | some g2 =>
                  match release [a] g2 with
                  | none => .fuelExhausted
                  | some g3 => .raised .bad_alloc g3
              else .undefined

/-- Handler of `create` (lines 190-199): for every parent pointer the new node `a` is
searched in the parent's `children` and erased when found; `none` when
`ptr.lock()` is null. -/
def createRollback (a : Addr) : List Addr → CitationGraph → Option CitationGraph
  | [], g => some g
  | p :: ps, g =>
    match g.heap p with
    | none => none
    | some n => createRollback a ps (setNode g p { n with children := setErase a n.children })

/-- Embedding of `create` (lines 156-203) when `children.insert` (line 183) throws
`std::bad_alloc` for parent pointer number `k`, counted from `0`: the node
has been linked into the first `k` parents, the handler of lines 185-201 runs and the
exception propagates, which destroys the local pointer `node`.  With no
parent pointer number `k` nothing throws and the call is `create`. -/
def createFailing (g : CitationGraph) (id : Id) (parent_ids : List Id) (k : Nat) :
    Result Unit :=
  if exists_ g id then .raised .PublicationAlreadyCreated g
  else if parent_ids.all (fun p => exists_ g p) then
    let a := g.next
    let parentPtrs := parent_ids.filterMap g.mapGraph
    let g1 := createAlloc g id parentPtrs
    match parentPtrs[k]? with
    | none => create g id parent_ids
    | some p =>
      match linkChildren a (parentPtrs.take k) g1 with
      | none => .undefined
      | some g2 =>
        match g2.heap p with
        | none => .undefined
        | some _ =>
          match createRollback a parentPtrs g2 with
          | none => .undefined
          | some g3 =>
            match release [a] g3 with
            | none => .fuelExhausted
            | some g4 => .raised .bad_alloc g4
  else .raised .PublicationNotFound g

/-- Example: `remove(3)` on the example graph fails in the iteration for its second
parent. -/
def exRemoveFailed : CitationGraph := (removeFailing exRABC 3 1).state exR


/-- Example: the state after `remove(2)` on `exRABC`; the node of `3` keeps the
expired back reference to the node of `2`. -/
def exRAC : CitationGraph := (remove exRABC 2).state exR

/-- Example: `3` is made to cite the root in `exRAC`. -/
def exRACroot : CitationGraph := (add_citation exRAC 3 0).state exR

/-- Example: `add_citation(3, 1)` is called in `exRAC`, where `3` cites `1`
already. -/
def exRACagain : CitationGraph := (add_citation exRAC 3 1).state exR

end CG

/-! ## Sets of pointers -/

namespace CG

theorem mem_setInsert (x a : Addr) (s : List Addr) :
    x ∈ setInsert a s ↔ x = a ∨ x ∈ s := by
  unfold setInsert
  split
  · constructor
    · intro h; exact Or.inr h
    · rintro (rfl | h)
      · assumption
      · exact h
  · simp [List.mem_orderedInsert]

theorem setInsert_of_mem {a : Addr} {s : List Addr} (h : a ∈ s) : setInsert a s = s := by
  simp [setInsert, h]

theorem setInsert_idem (a : Addr) (s : List Addr) :
    setInsert a (setInsert a s) = setInsert a s :=
  setInsert_of_mem ((mem_setInsert a a s).2 (Or.inl rfl))

theorem nodup_setInsert {a : Addr} {s : List Addr} (h : s.Nodup) : (setInsert a s).Nodup := by
  unfold setInsert
  split
  · exact h
  · rename_i hn
    exact (List.perm_orderedInsert _ a s).nodup_iff.2 (List.nodup_cons.2 ⟨hn, h⟩)

theorem mem_setErase (x a : Addr) (s : List Addr) :
    x ∈ setErase a s ↔ x ∈ s ∧ x ≠ a := by
  simp [setErase]

theorem nodup_setErase {a : Addr} {s : List Addr} (h : s.Nodup) : (setErase a s).Nodup :=
  h.filter _

theorem mem_foldl_setInsert (x : Addr) (l : List Addr) :
    ∀ init : List Addr, x ∈ l.foldl (fun s p => setInsert p s) init ↔ x ∈ init ∨ x ∈ l := by
  induction l with
  | nil => intro init; simp
  | cons p ps ih =>
    intro init
    simp only [List.foldl_cons, ih, mem_setInsert, List.mem_cons]
    tauto

theorem nodup_foldl_setInsert (l : List Addr) :
    ∀ init : List Addr, init.Nodup → (l.foldl (fun s p => setInsert p s) init).Nodup := by
  induction l with
  | nil => intro init h; simpa using h
  | cons p ps ih =>
    intro init h
    exact ih _ (nodup_setInsert h)

end CG

/-! ## The representation invariant -/

namespace CG

theorem owned_iff {g : CitationGraph} (hb : ∀ a n, g.heap a = some n → a < g.next)
    (w : List Addr) (a : Addr) :
    owned g w a = true ↔ g.root = a ∨ a ∈ w ∨ ∃ b, Edge g b a := by
  unfold owned Edge
  simp only [Bool.or_eq_true, decide_eq_true_eq, List.any_eq_true, List.mem_range, or_assoc]
  refine or_congr Iff.rfl (or_congr Iff.rfl ?_)
  constructor
  · rintro ⟨b, -, hb2⟩
    cases hm : g.heap b with
    | none => simp [hm] at hb2
    | some m => exact ⟨b, m, hm, by simpa [hm] using hb2⟩
  · rintro ⟨b, m, hm, hc⟩
    exact ⟨b, hb b m hm, by simpa [hm] using hc⟩

theorem LInv.parent_sym_full {g : CitationGraph} (h : Inv g) {x p : Addr} {n m : Node}
    (hx : g.heap x = some n) (hp : p ∈ n.parents) (hm : g.heap p = some m) :
    x ∈ m.children := by
  rcases h.parent_sym x n p m hx hp hm with h1 | ⟨h2, h3⟩
  · exact h1
  · rcases h.owner x n hx with h4 | h4 | ⟨b, h4⟩
    · exact absurd h4 h2
    · simp at h4
    · exact absurd h4 (h3 b)

theorem reedge_heap_some {g : CitationGraph} {C P : Addr → List Addr → List Addr}
    {x : Addr} {n' : Node} (h : (reedge g C P).heap x = some n') :
    ∃ n, g.heap x = some n ∧
      n' = { n with children := C x n.children, parents := P x n.parents } := by
  unfold reedge at h
  simp only [Option.map_eq_some'] at h
  obtain ⟨n, hn, rfl⟩ := h
  exact ⟨n, hn, rfl⟩

theorem reedge_heap_of {g : CitationGraph} (C P : Addr → List Addr → List Addr)
    {x : Addr} {n : Node} (h : g.heap x = some n) :
    (reedge g C P).heap x =
      some { n with children := C x n.children, parents := P x n.parents } := by
  simp [reedge, h]

theorem reedge_edge {g : CitationGraph} {C P : Addr → List Addr → List Addr} {b c : Addr} :
    Edge (reedge g C P) b c ↔ ∃ m, g.heap b = some m ∧ c ∈ C b m.children := by
  constructor
  · rintro ⟨m', hm', hc⟩
    obtain ⟨m, hm, rfl⟩ := reedge_heap_some hm'
    exact ⟨m, hm, hc⟩
  · rintro ⟨m, hm, hc⟩
    exact ⟨_, reedge_heap_of C P hm, hc⟩

/-- Replacing the edge sets of live nodes keeps the invariant, provided the new
sets satisfy the conditions on edges. -/
theorem LInv.reedge {w w' : List Addr} {g : CitationGraph} (h : LInv w g)
    (C P : Addr → List Addr → List Addr)
    (hc : ∀ b m c, g.heap b = some m → c ∈ C b m.children →
      ∃ k, g.heap c = some k ∧ b ∈ P c k.parents)
    (hp : ∀ x n p m, g.heap x = some n → p ∈ P x n.parents → g.heap p = some m →
      x ∈ C p m.children ∨
        (g.root ≠ x ∧ ∀ b m, g.heap b = some m → x ∉ C b m.children))
    (ho : ∀ a n, g.heap a = some n →
      g.root = a ∨ a ∈ w' ∨ ∃ b m, g.heap b = some m ∧ a ∈ C b m.children)
    (hnc : ∀ a n, g.heap a = some n → (C a n.children).Nodup)
    (hnp : ∀ a n, g.heap a = some n → (P a n.parents).Nodup)
    (hpb : ∀ a n p, g.heap a = some n → p ∈ P a n.parents → p < g.next) :
    LInv w' (CG.reedge g C P) where
  bound := fun a n' hn' => by
    obtain ⟨n, hn, -⟩ := reedge_heap_some hn'
    exact h.bound a n hn
  map_live := fun i a hi => by
    obtain ⟨n, hn, hpub⟩ := h.map_live i a hi
    exact ⟨_, reedge_heap_of C P hn, hpub⟩
  live_map := fun a n' hn' => by
    obtain ⟨n, hn, rfl⟩ := reedge_heap_some hn'
    exact h.live_map a n hn
  root_live := by
    obtain ⟨n, hn⟩ := h.root_live
    exact ⟨_, reedge_heap_of C P hn⟩
  child_live := fun b m' c hm' hcm => by
    obtain ⟨m, hm, rfl⟩ := reedge_heap_some hm'
    obtain ⟨k, hk, hbk⟩ := hc b m c hm hcm
    exact ⟨_, reedge_heap_of C P hk, hbk⟩
  parent_sym := fun x n' p m' hn' hpn hm' => by
    obtain ⟨n, hn, rfl⟩ := reedge_heap_some hn'
    obtain ⟨m, hm, rfl⟩ := reedge_heap_some hm'
    rcases hp x n p m hn hpn hm with h1 | ⟨h2, h3⟩
    · exact Or.inl h1
    · refine Or.inr ⟨h2, fun b hb => ?_⟩
      obtain ⟨k, hk, hxk⟩ := reedge_edge.1 hb
      exact h3 b k hk hxk
  owner := fun a n' hn' => by
    obtain ⟨n, hn, -⟩ := reedge_heap_some hn'
    rcases ho a n hn with h1 | h1 | ⟨b, m, hm, ha⟩
    · exact Or.inl h1
    · exact Or.inr (Or.inl h1)
    · exact Or.inr (Or.inr ⟨b, reedge_edge.2 ⟨m, hm, ha⟩⟩)
  nodup_children := fun a n' hn' => by
    obtain ⟨n, hn, rfl⟩ := reedge_heap_some hn'
    exact hnc a n hn
  nodup_parents := fun a n' hn' => by
    obtain ⟨n, hn, rfl⟩ := reedge_heap_some hn'
    exact hnp a n hn
  parents_bound := fun a n' p hn' hpn => by
    obtain ⟨n, hn, rfl⟩ := reedge_heap_some hn'
    exact hpb a n p hn hpn

theorem construct_inv (stem_id : Id) : Inv (construct stem_id) where
  bound := fun a n hn => by
    by_cases ha : a = 0
    · subst ha; simp [construct]
    · simp [construct, Function.update, ha] at hn
  map_live := fun i a hi => by
    by_cases h : i = stem_id
    · subst h
      simp [construct] at hi
      subst hi
      exact ⟨(Node.new i).setIterator i, by simp [construct], rfl⟩
    · simp [construct, Function.update, h] at hi
  live_map := fun a n hn => by
    by_cases ha : a = 0
    · subst ha
      simp [construct] at hn
      subst hn
      simp [construct, Node.new, Node.setIterator]
    · simp [construct, Function.update, ha] at hn
  root_live := ⟨(Node.new stem_id).setIterator stem_id, by simp [construct]⟩
  child_live := fun b m c hm hc => by
    by_cases hb : b = 0
    · subst hb
      simp [construct] at hm
      subst hm
      simp [Node.new, Node.setIterator] at hc
    · simp [construct, Function.update, hb] at hm
  parent_sym := fun x n p m hn hp _ => by
    by_cases hx : x = 0
    · subst hx
      simp [construct] at hn
      subst hn
      simp [Node.new, Node.setIterator] at hp
    · simp [construct, Function.update, hx] at hn
  owner := fun a n hn => by
    by_cases ha : a = 0
    · subst ha; exact Or.inl rfl
    · simp [construct, Function.update, ha] at hn
  nodup_children := fun a n hn => by
    by_cases ha : a = 0
    · subst ha
      simp [construct] at hn
      subst hn
      simp [Node.new, Node.setIterator]
    · simp [construct, Function.update, ha] at hn
  nodup_parents := fun a n hn => by
    by_cases ha : a = 0
    · subst ha
      simp [construct] at hn
      subst hn
      simp [Node.new, Node.setIterator]
    · simp [construct, Function.update, ha] at hn
  parents_bound := fun a n p hn hp => by
    by_cases ha : a = 0
    · subst ha
      simp [construct] at hn
      subst hn
      simp [Node.new, Node.setIterator] at hp
    · simp [construct, Function.update, ha] at hn

end CG

/-! ## Operations as edge replacements -/

namespace CG

theorem graph_ext {g g' : CitationGraph} (h1 : g.mapGraph = g'.mapGraph)
    (h2 : g.root = g'.root) (h3 : ∀ x, g.heap x = g'.heap x) (h4 : g.next = g'.next) :
    g = g' := by
  cases g; cases g'
  simp only [CitationGraph.mk.injEq]
  exact ⟨h1, h2, funext h3, h4⟩

theorem add_citation_eq {g : CitationGraph} {child_id parent_id : Id} {c p : Addr}
    {cn pn : Node} (hc : g.mapGraph child_id = some c) (hp : g.mapGraph parent_id = some p)
    (hcn : g.heap c = some cn) (hpn : g.heap p = some pn) :
    add_citation g child_id parent_id = .returned () (reedge g (addC c p) (addP c p)) := by
  unfold add_citation
  simp only [hc, hp, hcn]
  by_cases hpc : p = c
  · subst hpc
    simp only [setNode, Function.update_same]
    congr 1
    refine graph_ext rfl rfl (fun x => ?_) rfl
    by_cases hx : x = p
    · subst hx
      simp [reedge, hcn, addC, addP]
    · simp [reedge, Function.update, hx, addC, addP]
  · simp only [setNode, Function.update_noteq hpc, hpn]
    congr 1
    refine graph_ext rfl rfl (fun x => ?_) rfl
    by_cases hx : x = p
    · subst hx
      simp [reedge, hpn, addC, addP, hpc]
    · by_cases hx2 : x = c
      · subst hx2
        simp [reedge, Function.update, hx, hcn, addC, addP]
      · simp [reedge, Function.update, hx, hx2, addC, addP]

theorem add_citation_inv {g : CitationGraph} (h : Inv g) {c p : Addr} {cn pn : Node}
    (hcn : g.heap c = some cn) (hpn : g.heap p = some pn) :
    Inv (reedge g (addC c p) (addP c p)) := by
  apply h.reedge
  · intro b m x hm hx
    unfold addC at hx
    unfold addP
    split at hx
    · rename_i hb
      subst hb
      rcases (mem_setInsert _ _ _).1 hx with rfl | hx
      · exact ⟨cn, hcn, by simp [mem_setInsert]⟩
      · obtain ⟨k, hk, hbk⟩ := h.child_live b m x hm hx
        refine ⟨k, hk, ?_⟩
        split
        · exact (mem_setInsert _ _ _).2 (Or.inr hbk)
        · exact hbk
    · obtain ⟨k, hk, hbk⟩ := h.child_live b m x hm hx
      refine ⟨k, hk, ?_⟩
      split
      · exact (mem_setInsert _ _ _).2 (Or.inr hbk)
      · exact hbk
  · intro x n q m hn hq hm
    left
    unfold addP at hq
    unfold addC
    have key : q ∈ n.parents → x ∈ m.children := fun hq2 => h.parent_sym_full hn hq2 hm
    split at hq
    · rename_i hx
      subst hx
      rcases (mem_setInsert _ _ _).1 hq with rfl | hq
      · simp [mem_setInsert]
      · split
        · exact (mem_setInsert _ _ _).2 (Or.inr (key hq))
        · exact key hq
    · split
      · exact (mem_setInsert _ _ _).2 (Or.inr (key hq))
      · exact key hq
  · intro a n hn
    rcases h.owner a n hn with h1 | h1 | ⟨b, m, hm, ha⟩
    · exact Or.inl h1
    · exact Or.inr (Or.inl h1)
    · refine Or.inr (Or.inr ⟨b, m, hm, ?_⟩)
      unfold addC
      split
      · exact (mem_setInsert _ _ _).2 (Or.inr ha)
      · exact ha
  · intro a n hn
    unfold addC
    split
    · exact nodup_setInsert (h.nodup_children a n hn)
    · exact h.nodup_children a n hn
  · intro a n hn
    unfold addP
    split
    · exact nodup_setInsert (h.nodup_parents a n hn)
    · exact h.nodup_parents a n hn
  · intro a n q hn hq
    unfold addP at hq
    split at hq
    · rcases (mem_setInsert _ _ _).1 hq with rfl | hq
      · exact h.bound _ _ hpn
      · exact h.parents_bound a n q hn hq
    · exact h.parents_bound a n q hn hq

/-- The outcome of `get_parents` is that of its loop over the back references. -/
theorem get_parents_eq {g : CitationGraph} {id : Id} {a : Addr} {n : Node}
    (ha : g.mapGraph id = some a) (hn : g.heap a = some n) :
    get_parents g id =
      match pubs g n.parents with
      | none => .undefined
      | some ids => .returned ids g := by
  unfold get_parents
  simp only [ha, hn]

/-- A call of `get_parents` that leaves a state leaves the state it found. -/
theorem get_parents_post {g g' : CitationGraph} {id : Id}
    (hpost : (get_parents g id).post = some g') : g' = g := by
  unfold get_parents at hpost
  cases hid : g.mapGraph id with
  | none =>
    simp only [hid, Result.post, Option.some.injEq] at hpost
    exact hpost.symm
  | some a =>
    simp only [hid] at hpost
    cases ha : g.heap a with
    | none => simp [ha, Result.post] at hpost
    | some n =>
      simp only [ha] at hpost
      cases hp : pubs g n.parents with
      | none => simp [hp, Result.post] at hpost
      | some ids =>
        simp only [hp, Result.post, Option.some.injEq] at hpost
        exact hpost.symm

end CG

/-! ## The loops of `create` and `remove` -/

namespace CG

theorem linkChildren_eq (a : Addr) (ps : List Addr) :
    ∀ g : CitationGraph, (∀ p ∈ ps, ∃ n, g.heap p = some n) →
      linkChildren a ps g = some (reedge g (linkC a ps) (fun _ s => s)) := by
  induction ps with
  | nil =>
    intro g _
    simp only [linkChildren]
    congr 1
    refine graph_ext rfl rfl (fun x => ?_) rfl
    cases hx : g.heap x <;> simp [reedge, linkC, hx]
  | cons p ps ih =>
    intro g hg
    obtain ⟨n, hn⟩ := hg p (List.mem_cons_self _ _)
    simp only [linkChildren, hn]
    rw [ih]
    · congr 1
      refine graph_ext rfl rfl (fun x => ?_) rfl
      by_cases hx : x = p
      · subst hx
        by_cases hps : x ∈ ps
        · simp [reedge, setNode, linkC, hn, hps, setInsert_idem]
        · simp [reedge, setNode, linkC, hn, hps]
      · simp [reedge, setNode, linkC, Function.update, hx]
    · intro q hq
      by_cases hqp : q = p
      · subst hqp
        simp [setNode]
      · obtain ⟨m, hm⟩ := hg q (List.mem_cons_of_mem _ hq)
        exact ⟨m, by simp [setNode, Function.update, hqp, hm]⟩

theorem removeLoop_eq (a : Addr) (ps : List Addr) :
    ∀ g : CitationGraph, ps.Nodup → (∀ p ∈ ps, ∃ n, g.heap p = some n ∧ a ∈ n.children) →
      removeLoop a ps g = some (reedge g (unlinkC a ps) (fun _ s => s)) := by
  induction ps with
  | nil =>
    intro g _ _
    simp only [removeLoop]
    congr 1
    refine graph_ext rfl rfl (fun x => ?_) rfl
    cases hx : g.heap x <;> simp [reedge, unlinkC, hx]
  | cons p ps ih =>
    intro g hnd hg
    obtain ⟨n, hn, han⟩ := hg p (List.mem_cons_self _ _)
    obtain ⟨hpps, hnd2⟩ := List.nodup_cons.1 hnd
    simp only [removeLoop, hn, han, if_true]
    rw [ih _ hnd2]
    · congr 1
      refine graph_ext rfl rfl (fun x => ?_) rfl
      by_cases hx : x = p
      · subst hx
        simp [reedge, setNode, unlinkC, hn, hpps]
      · simp [reedge, setNode, unlinkC, Function.update, hx]
    · intro q hq
      have hqp : q ≠ p := fun e => hpps (e ▸ hq)
      obtain ⟨m, hm, ham⟩ := hg q (List.mem_cons_of_mem _ hq)
      exact ⟨m, by simp [setNode, Function.update, hqp, hm], ham⟩

/-- The loop of `remove` fails exactly as the source does: on a parent that has
expired, or on one whose `children` do not hold the node. -/
theorem removeLoop_none_of_expired (a p : Addr) (ps : List Addr) (g : CitationGraph)
    (hp : p ∈ ps) (hg : g.heap p = none) : removeLoop a ps g = none := by
  induction ps generalizing g with
  | nil => simp at hp
  | cons q qs ih =>
    by_cases hqp : q = p
    · subst hqp
      simp [removeLoop, hg]
    · have hp2 : p ∈ qs := by
        rcases List.mem_cons.1 hp with h | h
        · exact absurd h.symm hqp
        · exact h
      simp only [removeLoop]
      cases hq : g.heap q with
      | none => rfl
      | some n =>
        simp only
        split
        · apply ih _ hp2
          simp [setNode, Function.update, Ne.symm hqp, hg]
        · rfl

end CG

/-! ## The destructor cascade -/

namespace CG

theorem destroyLoop_cascade :
    ∀ (fuel : Nat) (work : List Addr) (g g' : CitationGraph),
      destroyLoop fuel work g = some g' → Cascade work g g' := by
  intro fuel
  induction fuel with
  | zero =>
    intro work g g' h
    cases work with
    | nil =>
      simp only [destroyLoop, Option.some.injEq] at h
      subst h
      exact Cascade.done g
    | cons a rest => simp [destroyLoop] at h
  | succ fuel ih =>
    intro work g g' h
    cases work with
    | nil =>
      simp only [destroyLoop, Option.some.injEq] at h
      subst h
      exact Cascade.done g
    | cons a rest =>
      simp only [destroyLoop] at h
      by_cases ho : owned g rest a = true
      · simp only [ho, if_true] at h
        exact Cascade.skip (Or.inl ho) (ih _ _ _ h)
      · simp only [ho] at h
        cases hn : g.heap a with
        | none =>
          simp only [hn] at h
          exact Cascade.skip (Or.inr hn) (ih _ _ _ h)
        | some n =>
          simp only [hn] at h
          exact Cascade.destroy (by simpa using ho) hn (ih _ _ _ h)

theorem edgeCount_delete (g : CitationGraph) (a : Addr) (n : Node) (hn : g.heap a = some n)
    (k : Nat) :
    edgeCount (deleteYourselfFromMap g a n) k + (if a < k then n.children.length else 0) =
      edgeCount g k := by
  induction k with
  | zero => simp [edgeCount]
  | succ k ih =>
    have e1 : ∀ g : CitationGraph, edgeCount g (k + 1) = edgeCount g k +
        (match g.heap k with
          | some n => n.children.length
          | none => 0) := by
      intro g
      simp [edgeCount, List.range_succ]
    rw [e1, e1]
    by_cases hak : a = k
    · subst hak
      have hh : (deleteYourselfFromMap g a n).heap a = none := by
        simp [deleteYourselfFromMap]
      rw [hh, hn]
      rw [if_neg (lt_irrefl a)] at ih
      rw [if_pos (Nat.lt_succ_self a)]
      simp only
      omega
    · have hh : (deleteYourselfFromMap g a n).heap k = g.heap k := by
        simp [deleteYourselfFromMap, Function.update, Ne.symm hak]
      rw [hh]
      by_cases hlt : a < k
      · have hlt2 : a < k + 1 := Nat.lt_succ_of_lt hlt
        rw [if_pos hlt] at ih
        rw [if_pos hlt2]
        omega
      · have hlt2 : ¬ a < k + 1 := fun h =>
          hlt (lt_of_le_of_ne (Nat.lt_succ_iff.1 h) hak)
        rw [if_neg hlt] at ih
        rw [if_neg hlt2]
        omega

/-- The step budget of `release` is never exhausted. -/
theorem destroyLoop_total :
    ∀ (fuel : Nat) (work : List Addr) (g : CitationGraph),
      (∀ a n, g.heap a = some n → a < g.next) →
      work.length + edgeCount g g.next ≤ fuel →
      ∃ g', destroyLoop fuel work g = some g' := by
  intro fuel
  induction fuel with
  | zero =>
    intro work g _ hf
    cases work with
    | nil => exact ⟨g, rfl⟩
    | cons a rest => simp at hf
  | succ fuel ih =>
    intro work g hb hf
    cases work with
    | nil => exact ⟨g, rfl⟩
    | cons a rest =>
      simp only [destroyLoop]
      simp only [List.length_cons] at hf
      by_cases ho : owned g rest a = true
      · simp only [ho, if_true]
        exact ih _ _ hb (by omega)
      · simp only [ho]
        cases hn : g.heap a with
        | none => exact ih _ _ hb (by omega)
        | some n =>
          simp only
          apply ih
          · intro x m hm
            by_cases hx : x = a
            · subst hx
              simp [deleteYourselfFromMap] at hm
            · have : g.heap x = some m := by
                simpa [deleteYourselfFromMap, Function.update, hx] using hm
              exact hb x m this
          · have h1 := edgeCount_delete g a n hn g.next
            have h2 : a < g.next := hb a n hn
            simp only [h2, if_true] at h1
            have h3 : (deleteYourselfFromMap g a n).next = g.next := rfl
            rw [h3, List.length_append]
            omega

theorem release_total (work : List Addr) (g : CitationGraph)
    (hb : ∀ a n, g.heap a = some n → a < g.next) : ∃ g', release work g = some g' :=
  destroyLoop_total _ work g hb (le_refl _)

theorem release_cascade {work : List Addr} {g g' : CitationGraph}
    (h : release work g = some g') : Cascade work g g' :=
  destroyLoop_cascade _ _ _ _ h

theorem release_owned {g : CitationGraph} {a : Addr} (h : owned g [] a = true) :
    release [a] g = some g := by
  have : releaseFuel g [a] = edgeCount g g.next + 1 := by
    simp [releaseFuel, Nat.add_comm]
  unfold release
  rw [this]
  simp [destroyLoop, h]

end CG

namespace CG

theorem delete_heap_some {g : CitationGraph} {a x : Addr} {n m : Node}
    (h : (deleteYourselfFromMap g a n).heap x = some m) : x ≠ a ∧ g.heap x = some m := by
  by_cases hx : x = a
  · subst hx
    simp [deleteYourselfFromMap] at h
  · exact ⟨hx, by simpa [deleteYourselfFromMap, Function.update, hx] using h⟩

theorem delete_heap_of_ne {g : CitationGraph} {a x : Addr} (n : Node) (hx : x ≠ a) :
    (deleteYourselfFromMap g a n).heap x = g.heap x := by
  simp [deleteYourselfFromMap, Function.update, hx]

theorem delete_edge {g : CitationGraph} {a b c : Addr} {n : Node} :
    Edge (deleteYourselfFromMap g a n) b c ↔ b ≠ a ∧ Edge g b c := by
  constructor
  · rintro ⟨m, hm, hc⟩
    obtain ⟨h1, h2⟩ := delete_heap_some hm
    exact ⟨h1, m, h2, hc⟩
  · rintro ⟨h1, m, hm, hc⟩
    exact ⟨m, by rw [delete_heap_of_ne n h1]; exact hm, hc⟩

theorem skip_inv {a : Addr} {rest : List Addr} {g : CitationGraph} (h : LInv (a :: rest) g)
    (hs : owned g rest a = true ∨ g.heap a = none) : LInv rest g :=
  { h with
    owner := fun x n hn => by
      rcases h.owner x n hn with h1 | h1 | h1
      · exact Or.inl h1
      · rcases List.mem_cons.1 h1 with rfl | h2
        · rcases hs with hs | hs
          · exact (owned_iff h.bound rest x).1 hs
          · rw [hs] at hn; cases hn
        · exact Or.inr (Or.inl h2)
      · exact Or.inr (Or.inr h1) }

theorem destroy_inv {a : Addr} {rest : List Addr} {g : CitationGraph} {n : Node}
    (h : LInv (a :: rest) g) (ho : owned g rest a = false) (hn : g.heap a = some n) :
    LInv (n.children ++ rest) (deleteYourselfFromMap g a n) := by
  have hno : ¬ (g.root = a ∨ a ∈ rest ∨ ∃ b, Edge g b a) := by
    rw [← owned_iff h.bound rest a, ho]
    simp
  have hroot : g.root ≠ a := fun e => hno (Or.inl e)
  have hedge : ∀ b, ¬ Edge g b a := fun b e => hno (Or.inr (Or.inr ⟨b, e⟩))
  obtain ⟨hmap, hit, hset⟩ := h.live_map a n hn
  have hmapeq : (deleteYourselfFromMap g a n).mapGraph = Function.update g.mapGraph n.pub none := by
    simp [deleteYourselfFromMap, hset, hit]
  refine
    { bound := fun x m hm => h.bound x m (delete_heap_some hm).2
      map_live := ?_
      live_map := ?_
      root_live := ?_
      child_live := ?_
      parent_sym := ?_
      owner := ?_
      nodup_children := fun x m hm => h.nodup_children x m (delete_heap_some hm).2
      nodup_parents := fun x m hm => h.nodup_parents x m (delete_heap_some hm).2
      parents_bound := fun x m p hm hp => h.parents_bound x m p (delete_heap_some hm).2 hp }
  · intro i x hi
    rw [hmapeq] at hi
    by_cases hin : i = n.pub
    · subst hin
      simp at hi
    · rw [Function.update_noteq hin] at hi
      obtain ⟨m, hm, hpub⟩ := h.map_live i x hi
      have hxa : x ≠ a := by
        rintro rfl
        rw [hn] at hm
        cases hm
        exact hin hpub.symm
      exact ⟨m, by rw [delete_heap_of_ne n hxa]; exact hm, hpub⟩
  · intro x m hm
    obtain ⟨hxa, hm2⟩ := delete_heap_some hm
    obtain ⟨h1, h2, h3⟩ := h.live_map x m hm2
    refine ⟨?_, h2, h3⟩
    rw [hmapeq]
    have hne : m.pub ≠ n.pub := by
      intro e
      rw [e, hmap] at h1
      cases h1
      exact hxa rfl
    rw [Function.update_noteq hne]
    exact h1
  · obtain ⟨r, hr⟩ := h.root_live
    exact ⟨r, by
      show (deleteYourselfFromMap g a n).heap g.root = some r
      rw [delete_heap_of_ne n hroot]; exact hr⟩
  · intro b m c hm hc
    obtain ⟨hba, hm2⟩ := delete_heap_some hm
    obtain ⟨k, hk, hbk⟩ := h.child_live b m c hm2 hc
    have hca : c ≠ a := by
      rintro rfl
      exact hedge b ⟨m, hm2, hc⟩
    exact ⟨k, by rw [delete_heap_of_ne n hca]; exact hk, hbk⟩
  · intro x m p k hm hp hk
    obtain ⟨-, hm2⟩ := delete_heap_some hm
    obtain ⟨-, hk2⟩ := delete_heap_some hk
    rcases h.parent_sym x m p k hm2 hp hk2 with h1 | ⟨h2, h3⟩
    · exact Or.inl h1
    · exact Or.inr ⟨h2, fun b e => h3 b (delete_edge.1 e).2⟩
  · intro x m hm
    obtain ⟨hxa, hm2⟩ := delete_heap_some hm
    rcases h.owner x m hm2 with h1 | h1 | ⟨b, hb⟩
    · exact Or.inl h1
    · rcases List.mem_cons.1 h1 with h2 | h2
      · exact absurd h2 hxa
      · exact Or.inr (Or.inl (List.mem_append_right _ h2))
    · by_cases hba : b = a
      · subst hba
        obtain ⟨k, hk, hxk⟩ := hb
        rw [hn] at hk
        cases hk
        exact Or.inr (Or.inl (List.mem_append_left _ hxk))
      · exact Or.inr (Or.inr ⟨b, delete_edge.2 ⟨hba, hb⟩⟩)

theorem cascade_inv {work : List Addr} {g g' : CitationGraph} (hc : Cascade work g g') :
    LInv work g → Inv g' := by
  induction hc with
  | done g => exact fun h => h
  | skip hs _ ih => exact fun h => ih (skip_inv h hs)
  | destroy ho hn _ ih => exact fun h => ih (destroy_inv h ho hn)

theorem cascade_frame {work : List Addr} {g g' : CitationGraph} (hc : Cascade work g g') :
    g'.root = g.root ∧ g'.next = g.next ∧
      (∀ x m, g'.heap x = some m → g.heap x = some m) ∧
      (∀ i x, g'.mapGraph i = some x → g.mapGraph i = some x) := by
  induction hc with
  | done g => exact ⟨rfl, rfl, fun _ _ h => h, fun _ _ h => h⟩
  | skip _ _ ih => exact ih
  | @destroy a rest g g' n ho hn _ ih =>
    obtain ⟨h1, h2, h3, h4⟩ := ih
    refine ⟨h1, h2, fun x m hm => (delete_heap_some (h3 x m hm)).2, fun i x hi => ?_⟩
    have := h4 i x hi
    simp only [deleteYourselfFromMap] at this
    split at this
    · by_cases hin : i = n.it
      · subst hin
        simp at this
      · rwa [Function.update_noteq hin] at this
    · exact this

end CG

/-! ## `create` keeps the invariant -/

namespace CG

theorem mem_linkC {a x b : Addr} {ps s : List Addr} :
    x ∈ linkC a ps b s ↔ (x = a ∧ b ∈ ps) ∨ x ∈ s := by
  unfold linkC
  split
  · rename_i hb
    simp [mem_setInsert, hb]
  · rename_i hb
    simp [hb]

theorem mem_unlinkC {a x b : Addr} {ps s : List Addr} :
    x ∈ unlinkC a ps b s ↔ x ∈ s ∧ (b ∈ ps → x ≠ a) := by
  unfold unlinkC
  split
  · rename_i hb
    simp [mem_setErase, hb]
  · rename_i hb
    simp [hb]

theorem createAlloc_heap_new (g : CitationGraph) (id : Id) (ptrs : List Addr) :
    (createAlloc g id ptrs).heap g.next = some (createNode id ptrs) := by
  simp [createAlloc]

theorem createNode_pub (id : Id) (ptrs : List Addr) : (createNode id ptrs).pub = id := rfl

theorem createNode_it (id : Id) (ptrs : List Addr) : (createNode id ptrs).it = id := rfl

theorem createNode_seted (id : Id) (ptrs : List Addr) :
    (createNode id ptrs).setedIterator = true := rfl

theorem createNode_children (id : Id) (ptrs : List Addr) :
    (createNode id ptrs).children = [] := rfl

theorem mem_createNode_parents (id : Id) (ptrs : List Addr) (p : Addr) :
    p ∈ (createNode id ptrs).parents ↔ p ∈ ptrs := by
  show p ∈ ptrs.foldl (fun s p => setInsert p s) [] ↔ p ∈ ptrs
  simp [mem_foldl_setInsert]

theorem createNode_parents_nodup (id : Id) (ptrs : List Addr) :
    (createNode id ptrs).parents.Nodup :=
  nodup_foldl_setInsert _ _ List.nodup_nil

theorem createAlloc_heap_old (g : CitationGraph) (id : Id) (ptrs : List Addr) {x : Addr}
    (hx : x ≠ g.next) : (createAlloc g id ptrs).heap x = g.heap x := by
  simp [createAlloc, Function.update, hx]

theorem createAlloc_edge {g : CitationGraph} {id : Id} {ptrs : List Addr} {b c : Addr} :
    Edge (createAlloc g id ptrs) b c ↔ b ≠ g.next ∧ Edge g b c := by
  constructor
  · rintro ⟨m, hm, hc⟩
    by_cases hb : b = g.next
    · subst hb
      rw [createAlloc_heap_new] at hm
      cases hm
      simp [createNode_children] at hc
    · rw [createAlloc_heap_old g id ptrs hb] at hm
      exact ⟨hb, m, hm, hc⟩
  · rintro ⟨hb, m, hm, hc⟩
    exact ⟨m, by rw [createAlloc_heap_old g id ptrs hb]; exact hm, hc⟩

theorem live_ne_next {g : CitationGraph} (h : Inv g) {x : Addr} {n : Node}
    (hx : g.heap x = some n) : x ≠ g.next :=
  Nat.ne_of_lt (h.bound x n hx)

theorem createAlloc_inv {g : CitationGraph} (h : Inv g) {id : Id} {ptrs : List Addr}
    (hid : g.mapGraph id = none) (hptrs : ∀ p ∈ ptrs, ∃ n, g.heap p = some n) :
    LInv [g.next] (createAlloc g id ptrs) := by
  have hfresh : g.heap g.next = none := by
    cases hn : g.heap g.next with
    | none => rfl
    | some n => exact absurd rfl (live_ne_next h hn)
  have hnoedge : ∀ b, ¬ Edge g b g.next := by
    rintro b ⟨m, hm, hc⟩
    obtain ⟨k, hk, -⟩ := h.child_live b m _ hm hc
    rw [hfresh] at hk
    cases hk
  have hcases : ∀ x m, (createAlloc g id ptrs).heap x = some m →
      (x = g.next ∧ m = createNode id ptrs) ∨ (x ≠ g.next ∧ g.heap x = some m) := by
    intro x m hm
    by_cases hx : x = g.next
    · subst hx
      rw [createAlloc_heap_new] at hm
      cases hm
      exact Or.inl ⟨rfl, rfl⟩
    · rw [createAlloc_heap_old g id ptrs hx] at hm
      exact Or.inr ⟨hx, hm⟩
  refine
    { bound := ?_, map_live := ?_, live_map := ?_, root_live := ?_, child_live := ?_,
      parent_sym := ?_, owner := ?_, nodup_children := ?_, nodup_parents := ?_,
      parents_bound := ?_ }
  · intro x m hm
    show x < g.next + 1
    rcases hcases x m hm with ⟨rfl, -⟩ | ⟨-, hm2⟩
    · exact Nat.lt_succ_self _
    · exact Nat.lt_succ_of_lt (h.bound x m hm2)
  · intro i x hi
    by_cases hii : i = id
    · subst hii
      have : x = g.next := by simpa [createAlloc] using hi.symm
      subst this
      exact ⟨_, createAlloc_heap_new g i ptrs, rfl⟩
    · have hi2 : g.mapGraph i = some x := by
        simpa [createAlloc, Function.update, hii] using hi
      obtain ⟨m, hm, hpub⟩ := h.map_live i x hi2
      exact ⟨m, by rw [createAlloc_heap_old g id ptrs (live_ne_next h hm)]; exact hm, hpub⟩
  · intro x m hm
    rcases hcases x m hm with ⟨rfl, rfl⟩ | ⟨hx, hm2⟩
    · simp [createAlloc, createNode_pub, createNode_it, createNode_seted]
    · obtain ⟨h1, h2, h3⟩ := h.live_map x m hm2
      refine ⟨?_, h2, h3⟩
      have hne : m.pub ≠ id := by
        intro e
        rw [e, hid] at h1
        cases h1
      simpa [createAlloc, Function.update, hne] using h1
  · obtain ⟨r, hr⟩ := h.root_live
    exact ⟨r, by
      show (createAlloc g id ptrs).heap g.root = some r
      rw [createAlloc_heap_old g id ptrs (live_ne_next h hr)]; exact hr⟩
  · intro b m c hm hc
    rcases hcases b m hm with ⟨rfl, rfl⟩ | ⟨hb, hm2⟩
    · simp [createNode_children] at hc
    · obtain ⟨k, hk, hbk⟩ := h.child_live b m c hm2 hc
      exact ⟨k, by rw [createAlloc_heap_old g id ptrs (live_ne_next h hk)]; exact hk, hbk⟩
  · intro x m p k hm hp hk
    rcases hcases x m hm with ⟨rfl, rfl⟩ | ⟨hx, hm2⟩
    · right
      obtain ⟨r, hr⟩ := h.root_live
      exact ⟨live_ne_next h hr, fun b e => hnoedge b (createAlloc_edge.1 e).2⟩
    · left
      rcases hcases p k hk with ⟨rfl, -⟩ | ⟨-, hk2⟩
      · exact absurd (h.parents_bound x m _ hm2 hp) (lt_irrefl _)
      · exact h.parent_sym_full hm2 hp hk2
  · intro x m hm
    rcases hcases x m hm with ⟨rfl, -⟩ | ⟨hx, hm2⟩
    · exact Or.inr (Or.inl (List.mem_singleton.2 rfl))
    · rcases h.owner x m hm2 with h1 | h1 | ⟨b, hb⟩
      · exact Or.inl h1
      · simp at h1
      · obtain ⟨k, hk, hxk⟩ := hb
        exact Or.inr (Or.inr ⟨b, createAlloc_edge.2 ⟨live_ne_next h hk, k, hk, hxk⟩⟩)
  · intro x m hm
    rcases hcases x m hm with ⟨rfl, rfl⟩ | ⟨hx, hm2⟩
    · simp [createNode_children]
    · exact h.nodup_children x m hm2
  · intro x m hm
    rcases hcases x m hm with ⟨rfl, rfl⟩ | ⟨hx, hm2⟩
    · exact createNode_parents_nodup _ _
    · exact h.nodup_parents x m hm2
  · intro x m p hm hp
    show p < g.next + 1
    rcases hcases x m hm with ⟨rfl, rfl⟩ | ⟨hx, hm2⟩
    · have hp2 : p ∈ ptrs := (mem_createNode_parents _ _ _).1 hp
      obtain ⟨k, hk⟩ := hptrs p hp2
      exact Nat.lt_succ_of_lt (h.bound p k hk)
    · exact Nat.lt_succ_of_lt (h.parents_bound x m p hm2 hp)

end CG

namespace CG

/-- The linking loop of `create` keeps the invariant while the local owner of the
new node `a` is pending. -/
theorem link_inv {g1 : CitationGraph} {a : Addr} {ptrs : List Addr} {node : Node}
    (h : LInv [a] g1) (ha : g1.heap a = some node)
    (hpar : ∀ p, p ∈ node.parents ↔ p ∈ ptrs) :
    LInv [a] (reedge g1 (linkC a ptrs) (fun _ s => s)) := by
  apply h.reedge
  · intro b m c hm hc
    rcases mem_linkC.1 hc with ⟨rfl, hb⟩ | hc2
    · exact ⟨node, ha, (hpar b).2 hb⟩
    · exact h.child_live b m c hm hc2
  · intro x n p m hn hp hm
    by_cases hx : x = a
    · subst hx
      rw [ha] at hn
      cases hn
      exact Or.inl (mem_linkC.2 (Or.inl ⟨rfl, (hpar p).1 hp⟩))
    · rcases h.parent_sym x n p m hn hp hm with h1 | ⟨h2, h3⟩
      · exact Or.inl (mem_linkC.2 (Or.inr h1))
      · refine Or.inr ⟨h2, fun b k hk hxk => ?_⟩
        rcases mem_linkC.1 hxk with ⟨e, -⟩ | hxk2
        · exact hx e
        · exact h3 b ⟨k, hk, hxk2⟩
  · intro x n hn
    rcases h.owner x n hn with h1 | h1 | ⟨b, m, hm, hx⟩
    · exact Or.inl h1
    · exact Or.inr (Or.inl h1)
    · exact Or.inr (Or.inr ⟨b, m, hm, mem_linkC.2 (Or.inr hx)⟩)
  · intro x n hn
    unfold linkC
    split
    · exact nodup_setInsert (h.nodup_children x n hn)
    · exact h.nodup_children x n hn
  · intro x n hn
    exact h.nodup_parents x n hn
  · intro x n p hn hp
    exact h.parents_bound x n p hn hp

theorem exists_iff {g : CitationGraph} {id : Id} :
    exists_ g id = true ↔ ∃ a, g.mapGraph id = some a := by
  unfold exists_
  cases g.mapGraph id <;> simp

theorem exists_false_iff {g : CitationGraph} {id : Id} :
    exists_ g id = false ↔ g.mapGraph id = none := by
  unfold exists_
  cases g.mapGraph id <;> simp

theorem ptrs_live {g : CitationGraph} (h : Inv g) (ps : List Id) :
    ∀ p ∈ ps.filterMap g.mapGraph, ∃ n, g.heap p = some n := by
  intro p hp
  obtain ⟨i, -, hi⟩ := List.mem_filterMap.1 hp
  obtain ⟨n, hn, -⟩ := h.map_live i p hi
  exact ⟨n, hn⟩

/-- The state of `create` after the linking loop. -/
theorem create_eq {g : CitationGraph} (h : Inv g) {id : Id} {ps : List Id}
    (hid : exists_ g id = false) (hps : ∀ p ∈ ps, exists_ g p = true) :
    create g id ps =
      match release [g.next] (reedge (createAlloc g id (ps.filterMap g.mapGraph))
          (linkC g.next (ps.filterMap g.mapGraph)) (fun _ s => s)) with
      | none => .fuelExhausted
      | some g3 => .returned () g3 := by
  unfold create
  have hall : ps.all (fun p => exists_ g p) = true := by
    simpa [List.all_eq_true] using hps
  simp only [hid, hall, if_true, Bool.false_eq_true, if_false]
  rw [linkChildren_eq]
  intro p hp
  obtain ⟨n, hn⟩ := ptrs_live h ps p hp
  exact ⟨n, by rw [createAlloc_heap_old g id _ (live_ne_next h hn)]; exact hn⟩

theorem create_linked_inv {g : CitationGraph} (h : Inv g) {id : Id} (ps : List Id)
    (hid : exists_ g id = false) :
    LInv [g.next] (reedge (createAlloc g id (ps.filterMap g.mapGraph))
      (linkC g.next (ps.filterMap g.mapGraph)) (fun _ s => s)) :=
  link_inv (createAlloc_inv h (exists_false_iff.1 hid) (ptrs_live h ps))
    (createAlloc_heap_new g id _) (mem_createNode_parents id _)

theorem create_inv {g g' : CitationGraph} (h : Inv g) {id : Id} {ps : List Id}
    (hpost : (create g id ps).post = some g') : Inv g' := by
  by_cases hid : exists_ g id = true
  · simp only [create, hid, if_true, Result.post, Option.some.injEq] at hpost
    subst hpost
    exact h
  · have hid2 : exists_ g id = false := by simpa using hid
    by_cases hps : ∀ p ∈ ps, exists_ g p = true
    · rw [create_eq h hid2 hps] at hpost
      cases hr : release [g.next] (reedge (createAlloc g id (ps.filterMap g.mapGraph))
          (linkC g.next (ps.filterMap g.mapGraph)) (fun _ s => s)) with
      | none => simp [hr, Result.post] at hpost
      | some g3 =>
        simp only [hr, Result.post, Option.some.injEq] at hpost
        subst hpost
        exact cascade_inv (release_cascade hr) (create_linked_inv h ps hid2)
    · have hall : ¬ ps.all (fun p => exists_ g p) = true := by
        simpa [List.all_eq_true] using hps
      simp only [create, hid2, hall, if_false, Bool.false_eq_true, Result.post,
        Option.some.injEq] at hpost
      subst hpost
      exact h

end CG

/-! ## `remove` keeps the invariant -/

namespace CG

/-- After the loop of `remove` the node `a` has lost every owner but the local
pointer, which is pending. -/
theorem unlink_inv {g : CitationGraph} (h : Inv g) {a : Addr} {n : Node}
    (ha : g.heap a = some n) (hroot : a ≠ g.root) :
    LInv [a] (reedge g (unlinkC a n.parents) (fun _ s => s)) := by
  apply h.reedge
  · intro b m c hm hc
    exact h.child_live b m c hm (mem_unlinkC.1 hc).1
  · intro x k p m hk hp hm
    by_cases hx : x = a
    · subst hx
      refine Or.inr ⟨fun e => hroot e.symm, fun b j hj hxj => ?_⟩
      obtain ⟨h1, h2⟩ := mem_unlinkC.1 hxj
      obtain ⟨k2, hk2, hbk⟩ := h.child_live b j x hj h1
      rw [ha] at hk2
      cases hk2
      exact h2 hbk rfl
    · exact Or.inl (mem_unlinkC.2 ⟨h.parent_sym_full hk hp hm, fun _ => hx⟩)
  · intro x k hk
    by_cases hx : x = a
    · exact Or.inr (Or.inl (List.mem_singleton.2 hx))
    · rcases h.owner x k hk with h1 | h1 | ⟨b, m, hm, hxm⟩
      · exact Or.inl h1
      · simp at h1
      · exact Or.inr (Or.inr ⟨b, m, hm, mem_unlinkC.2 ⟨hxm, fun _ => hx⟩⟩)
  · intro x k hk
    unfold unlinkC
    split
    · exact nodup_setErase (h.nodup_children x k hk)
    · exact h.nodup_children x k hk
  · intro x k hk
    exact h.nodup_parents x k hk
  · intro x k p hk hp
    exact h.parents_bound x k p hk hp

/-- When no back reference of the node has expired, `remove` unlinks the node from
its parents and releases the local pointer. -/
theorem remove_eq {g : CitationGraph} (h : Inv g) {id : Id} {a : Addr} {n : Node}
    (hid : g.mapGraph id = some a) (ha : g.heap a = some n) (hroot : a ≠ g.root)
    (hlive : ∀ p ∈ n.parents, ∃ m, g.heap p = some m) :
    remove g id =
      match release [a] (reedge g (unlinkC a n.parents) (fun _ s => s)) with
      | none => .fuelExhausted
      | some g2 => .returned () g2 := by
  unfold remove
  simp only [hid, ha, hroot, if_false]
  rw [removeLoop_eq a n.parents g (h.nodup_parents a n ha)]
  intro p hp
  obtain ⟨m, hm⟩ := hlive p hp
  exact ⟨m, hm, h.parent_sym_full ha hp hm⟩

/-- When a back reference of the node has expired, `remove` dereferences the null
pointer that `parent.lock()` yields. -/
theorem remove_expired {g : CitationGraph} {id : Id} {a p : Addr} {n : Node}
    (hid : g.mapGraph id = some a) (ha : g.heap a = some n) (hroot : a ≠ g.root)
    (hp : p ∈ n.parents) (hexp : g.heap p = none) :
    remove g id = .undefined := by
  unfold remove
  simp only [hid, ha, hroot, if_false]
  rw [removeLoop_none_of_expired a p n.parents g hp hexp]

theorem remove_inv {g g' : CitationGraph} (h : Inv g) {id : Id}
    (hpost : (remove g id).post = some g') : Inv g' := by
  cases hid : g.mapGraph id with
  | none =>
    simp only [remove, hid, Result.post, Option.some.injEq] at hpost
    subst hpost
    exact h
  | some a =>
    obtain ⟨n, ha, -⟩ := h.map_live id a hid
    by_cases hroot : a = g.root
    · subst hroot
      simp only [remove, hid, ha, if_true, Result.post, Option.some.injEq] at hpost
      subst hpost
      exact h
    · by_cases hlive : ∀ p ∈ n.parents, ∃ m, g.heap p = some m
      · rw [remove_eq h hid ha hroot hlive] at hpost
        cases hr : release [a] (reedge g (unlinkC a n.parents) (fun _ s => s)) with
        | none => simp [hr, Result.post] at hpost
        | some g2 =>
          simp only [hr, Result.post, Option.some.injEq] at hpost
          subst hpost
          exact cascade_inv (release_cascade hr) (unlink_inv h ha hroot)
      · push_neg at hlive
        obtain ⟨p, hp, hexp⟩ := hlive
        have hexp2 : g.heap p = none := by
          cases hq : g.heap p with
          | none => rfl
          | some m => exact absurd hq (hexp m)
        rw [remove_expired hid ha hroot hp hexp2] at hpost
        simp [Result.post] at hpost

theorem add_citation_post_inv {g g' : CitationGraph} (h : Inv g) {c_id p_id : Id}
    (hpost : (add_citation g c_id p_id).post = some g') : Inv g' := by
  cases hc : g.mapGraph c_id with
  | none =>
    simp only [add_citation, hc, Result.post, Option.some.injEq] at hpost
    subst hpost
    exact h
  | some c =>
    cases hp : g.mapGraph p_id with
    | none =>
      simp only [add_citation, hc, hp, Result.post, Option.some.injEq] at hpost
      subst hpost
      exact h
    | some p =>
      obtain ⟨cn, hcn, -⟩ := h.map_live c_id c hc
      obtain ⟨pn, hpn, -⟩ := h.map_live p_id p hp
      rw [add_citation_eq hc hp hcn hpn] at hpost
      simp only [Result.post, Option.some.injEq] at hpost
      subst hpost
      exact add_citation_inv h hcn hpn

theorem get_parents_post_inv {g g' : CitationGraph} (h : Inv g) {id : Id}
    (hpost : (get_parents g id).post = some g') : Inv g' := by
  rw [get_parents_post hpost]
  exact h

/-- Every reachable state satisfies the representation invariant. -/
theorem reachable_inv {g : CitationGraph} (h : Reachable g) : Inv g := by
  induction h with
  | construct stem_id => exact construct_inv stem_id
  | create id ps _ hpost ih => exact create_inv ih hpost
  | add_citation c p _ hpost ih => exact add_citation_post_inv ih hpost
  | remove id _ hpost ih => exact remove_inv ih hpost
  | get_parents id _ hpost ih => exact get_parents_post_inv ih hpost

end CG

/-! ## Observations -/

namespace CG

theorem pubs_eq (g : CitationGraph) (l : List Addr) (hl : ∀ c ∈ l, ∃ k, g.heap c = some k) :
    pubs g l = some (idsOf g l) := by
  induction l with
  | nil => rfl
  | cons c cs ih =>
    obtain ⟨k, hk⟩ := hl c (List.mem_cons_self _ _)
    have ih2 := ih (fun x hx => hl x (List.mem_cons_of_mem _ hx))
    simp [pubs, hk, ih2, idsOf]

theorem map_inj {g : CitationGraph} (h : Inv g) {i j : Id} {a : Addr}
    (hi : g.mapGraph i = some a) (hj : g.mapGraph j = some a) : i = j := by
  obtain ⟨n, hn, hpi⟩ := h.map_live i a hi
  obtain ⟨m, hm, hpj⟩ := h.map_live j a hj
  rw [hn] at hm
  cases hm
  exact hpi.symm.trans hpj

theorem mem_idsOf {g : CitationGraph} (h : Inv g) {i : Id} {l : List Addr} :
    i ∈ idsOf g l ↔ ∃ p ∈ l, g.mapGraph i = some p := by
  unfold idsOf
  rw [List.mem_filterMap]
  constructor
  · rintro ⟨p, hp, hi⟩
    obtain ⟨k, hk, rfl⟩ := Option.map_eq_some'.1 hi
    exact ⟨p, hp, (h.live_map p k hk).1⟩
  · rintro ⟨p, hp, hi⟩
    obtain ⟨k, hk, hpub⟩ := h.map_live i p hi
    exact ⟨p, hp, by simp [hk, hpub]⟩

theorem idsOf_nodup {g : CitationGraph} (h : Inv g) {l : List Addr} (hl : l.Nodup) :
    (idsOf g l).Nodup := by
  unfold idsOf
  apply List.Nodup.filterMap _ hl
  intro a a' b hb hb'
  obtain ⟨k, hk, rfl⟩ := Option.map_eq_some'.1 (Option.mem_def.1 hb)
  obtain ⟨k', hk', hpub⟩ := Option.map_eq_some'.1 (Option.mem_def.1 hb')
  have h1 := (h.live_map a k hk).1
  have h2 := (h.live_map a' k' hk').1
  rw [hpub, h1] at h2
  exact Option.some.inj h2

theorem get_children_eq {g : CitationGraph} (h : Inv g) {id : Id} {a : Addr} {n : Node}
    (hid : g.mapGraph id = some a) (ha : g.heap a = some n) :
    get_children g id = .returned (idsOf g n.children) g := by
  unfold get_children
  simp only [hid, ha]
  rw [pubs_eq g n.children]
  intro c hc
  obtain ⟨k, hk, -⟩ := h.child_live a n c ha hc
  exact ⟨k, hk⟩

theorem pubs_none (g : CitationGraph) {l : List Addr} {p : Addr} (hp : p ∈ l)
    (hexp : g.heap p = none) : pubs g l = none := by
  induction l with
  | nil => simp at hp
  | cons c cs ih =>
    rcases List.mem_cons.1 hp with rfl | hp2
    · simp [pubs, hexp]
    · cases hc : g.heap c <;> simp [pubs, hc, ih hp2]

/-- When no back reference of the node has expired, `get_parents` returns the
identifiers behind them and leaves the state as it is. -/
theorem get_parents_returned {g : CitationGraph} {id : Id} {a : Addr} {n : Node}
    (hid : g.mapGraph id = some a) (ha : g.heap a = some n)
    (hlive : ∀ p ∈ n.parents, ∃ k, g.heap p = some k) :
    get_parents g id = .returned (idsOf g n.parents) g := by
  rw [get_parents_eq hid ha, pubs_eq g n.parents hlive]

/-- The value of `get_parents` is the result of reading through the back
references. -/
theorem get_parents_val {g : CitationGraph} {id : Id} {a : Addr} {n : Node}
    (hid : g.mapGraph id = some a) (ha : g.heap a = some n) :
    (get_parents g id).val = pubs g n.parents := by
  rw [get_parents_eq hid ha]
  cases pubs g n.parents <;> rfl

/-- Reading through pointers depends only on the identifiers stored behind
them. -/
theorem pubs_congr_on {g g' : CitationGraph} (l : List Addr)
    (hl : ∀ p ∈ l, (g'.heap p).map Node.pub = (g.heap p).map Node.pub) :
    pubs g' l = pubs g l := by
  induction l with
  | nil => rfl
  | cons c cs ih =>
    have h1 := hl c (List.mem_cons_self _ _)
    have h2 := ih (fun p hp => hl p (List.mem_cons_of_mem _ hp))
    cases hc : g.heap c with
    | none =>
      have hc' : g'.heap c = none := by
        cases hc2 : g'.heap c with
        | none => rfl
        | some k => rw [hc, hc2] at h1; cases h1
      simp [pubs, hc, hc']
    | some k =>
      cases hc2 : g'.heap c with
      | none => rw [hc, hc2] at h1; cases h1
      | some k' =>
        rw [hc, hc2] at h1
        have hpub : k'.pub = k.pub := by simpa using h1
        simp only [pubs, hc, hc2, h2]
        cases pubs g cs <;> simp [hpub]

theorem pubs_reedge (g : CitationGraph) (C P : Addr → List Addr → List Addr)
    (l : List Addr) : pubs (reedge g C P) l = pubs g l := by
  apply pubs_congr_on
  intro p _
  cases hp : g.heap p <;> simp [reedge, hp]

theorem get_root_id_eq {g : CitationGraph} (h : Inv g) :
    ∃ r, get_root_id g = some r ∧ g.mapGraph r = some g.root := by
  obtain ⟨n, hn⟩ := h.root_live
  exact ⟨n.pub, by simp [get_root_id, hn], (h.live_map _ n hn).1⟩

end CG

/-! ## Claims about `create` -/

namespace CG

/-- With at least one parent the new node is owned, so the release of the local
pointer at the end of `create` destroys nothing. -/
theorem create_returns {g : CitationGraph} (h : Inv g) {id : Id} {ps : List Id}
    (hid : exists_ g id = false) (hne : ps ≠ []) (hps : ∀ p ∈ ps, exists_ g p = true) :
    create g id ps = .returned ()
      (reedge (createAlloc g id (ps.filterMap g.mapGraph))
        (linkC g.next (ps.filterMap g.mapGraph)) (fun _ s => s)) := by
  rw [create_eq h hid hps]
  have hL := create_linked_inv h ps hid
  obtain ⟨p0, hp0⟩ := List.exists_mem_of_ne_nil ps hne
  obtain ⟨q, hq⟩ := exists_iff.1 (hps p0 hp0)
  have hqmem : q ∈ ps.filterMap g.mapGraph := List.mem_filterMap.2 ⟨p0, hp0, hq⟩
  obtain ⟨n, hn, -⟩ := h.map_live p0 q hq
  have hedge : Edge (reedge (createAlloc g id (ps.filterMap g.mapGraph))
      (linkC g.next (ps.filterMap g.mapGraph)) (fun _ s => s)) q g.next := by
    rw [reedge_edge]
    refine ⟨n, ?_, mem_linkC.2 (Or.inl ⟨rfl, hqmem⟩)⟩
    rw [createAlloc_heap_old g id _ (live_ne_next h hn)]
    exact hn
  have hown : owned (reedge (createAlloc g id (ps.filterMap g.mapGraph))
      (linkC g.next (ps.filterMap g.mapGraph)) (fun _ s => s)) [] g.next = true :=
    (owned_iff hL.bound [] g.next).2 (Or.inr (Or.inr ⟨q, hedge⟩))
  rw [release_owned hown]

end CG

namespace CG

theorem createLinked_map (g : CitationGraph) (id : Id) (ptrs : List Addr)
    (C P : Addr → List Addr → List Addr) (x : Id) :
    (reedge (createAlloc g id ptrs) C P).mapGraph x =
      if x = id then some g.next else g.mapGraph x := by
  simp [reedge, createAlloc, Function.update]

/-- C1. In every reachable state, `create(id, parents)` with a fresh `id` and a
non-empty list of existing parents returns normally; afterwards `exists(id)`
holds, `get_parents(id)` lists exactly the identifiers of `parents`, each
once, and `get_children(p)` contains `id` for every `p` in `parents`. -/
theorem create_postcondition (g : CitationGraph) (id : Id) (ps : List Id)
    (hr : Reachable g) (hid : exists_ g id = false) (hne : ps ≠ [])
    (hps : ∀ p ∈ ps, exists_ g p = true) :
    ∃ g', create g id ps = .returned () g' ∧ exists_ g' id = true ∧
      (∃ l g'', get_parents g' id = .returned l g'' ∧ l.Nodup ∧ ∀ x, x ∈ l ↔ x ∈ ps) ∧
      (∀ p ∈ ps, ∃ l, get_children g' p = .returned l g' ∧ id ∈ l) := by
  have h := reachable_inv hr
  have hret := create_returns h hid hne hps
  have hG : Inv (reedge (createAlloc g id (ps.filterMap g.mapGraph))
      (linkC g.next (ps.filterMap g.mapGraph)) (fun _ s => s)) :=
    create_inv h (by rw [hret]; rfl)
  have hmapid : (reedge (createAlloc g id (ps.filterMap g.mapGraph))
      (linkC g.next (ps.filterMap g.mapGraph)) (fun _ s => s)).mapGraph id = some g.next := by
    rw [createLinked_map]; simp
  have hmapold : ∀ x a, g.mapGraph x = some a →
      (reedge (createAlloc g id (ps.filterMap g.mapGraph))
        (linkC g.next (ps.filterMap g.mapGraph)) (fun _ s => s)).mapGraph x = some a := by
    intro x a hx
    rw [createLinked_map]
    have : x ≠ id := by
      rintro rfl
      rw [exists_false_iff.1 hid] at hx
      cases hx
    simp [this, hx]
  refine ⟨_, hret, ?_, ?_, ?_⟩
  · exact exists_iff.2 ⟨_, hmapid⟩
  · have hheap := reedge_heap_of (linkC g.next (ps.filterMap g.mapGraph)) (fun _ s => s)
      (createAlloc_heap_new g id (ps.filterMap g.mapGraph))
    have hlive : ∀ p ∈ (createNode id (ps.filterMap g.mapGraph)).parents,
        ∃ k, (reedge (createAlloc g id (ps.filterMap g.mapGraph))
          (linkC g.next (ps.filterMap g.mapGraph)) (fun _ s => s)).heap p = some k := by
      intro p hp
      obtain ⟨k, hk⟩ := ptrs_live h ps p ((mem_createNode_parents id _ _).1 hp)
      exact ⟨_, reedge_heap_of _ _
        ((createAlloc_heap_old g id _ (live_ne_next h hk)).trans hk)⟩
    refine ⟨_, _, get_parents_returned hmapid hheap hlive, ?_, ?_⟩
    · exact idsOf_nodup hG (createNode_parents_nodup id _)
    · intro x
      rw [mem_idsOf hG]
      constructor
      · rintro ⟨p, hp, hx⟩
        have hp2 : p ∈ ps.filterMap g.mapGraph := (mem_createNode_parents id _ _).1 hp
        obtain ⟨y, hy, hyp⟩ := List.mem_filterMap.1 hp2
        have := map_inj hG hx (hmapold y p hyp)
        rw [this]
        exact hy
      · intro hx
        obtain ⟨p, hp⟩ := exists_iff.1 (hps x hx)
        exact ⟨p, (mem_createNode_parents id _ _).2 (List.mem_filterMap.2 ⟨x, hx, hp⟩),
          hmapold x p hp⟩
  · intro p hp
    obtain ⟨q, hq⟩ := exists_iff.1 (hps p hp)
    obtain ⟨n, hn, -⟩ := h.map_live p q hq
    have hheap := reedge_heap_of (linkC g.next (ps.filterMap g.mapGraph)) (fun _ s => s)
      ((createAlloc_heap_old g id (ps.filterMap g.mapGraph) (live_ne_next h hn)).trans hn)
    refine ⟨_, get_children_eq hG (hmapold p q hq) hheap, ?_⟩
    rw [mem_idsOf hG]
    exact ⟨g.next, mem_linkC.2 (Or.inl ⟨rfl, List.mem_filterMap.2 ⟨p, hp, hq⟩⟩), hmapid⟩

/-- Witness for C1: the root `0` exists in the fresh graph, `1` does not. -/
theorem create_postcondition_witness :
    ∃ g', create (construct 0) 1 [0] = .returned () g' ∧ exists_ g' 1 = true ∧
      (∃ l g'', get_parents g' 1 = .returned l g'' ∧ l.Nodup ∧ ∀ x, x ∈ l ↔ x ∈ [0]) ∧
      (∀ p ∈ [0], ∃ l, get_children g' p = .returned l g' ∧ 1 ∈ l) :=
  create_postcondition (construct 0) 1 [0] (Reachable.construct 0) (by decide) (by decide)
    (by decide)

end CG

namespace CG

/-- C4. `create` with an identifier that already exists raises
`PublicationAlreadyCreated`, whatever the parent list, and leaves the container
in the very state it was in: the existing identifiers and every
`get_children` and `get_parents` are as before. -/
theorem create_duplicate (g : CitationGraph) (id : Id) (ps : List Id)
    (hid : exists_ g id = true) :
    ∃ g', create g id ps = .raised .PublicationAlreadyCreated g' ∧ g' = g ∧
      (∀ x, exists_ g' x = exists_ g x) ∧
      (∀ x, get_children g' x = get_children g x) ∧
      (∀ x, get_parents g' x = get_parents g x) := by
  refine ⟨g, ?_, rfl, fun _ => rfl, fun _ => rfl, fun _ => rfl⟩
  simp [create, hid]

/-- Witness for C4: the root identifier is created a second time, with a parent
that does not exist. -/
theorem create_duplicate_witness :
    ∃ g', create (construct 0) 0 [7] = .raised .PublicationAlreadyCreated g' ∧
      g' = construct 0 ∧
      (∀ x, exists_ g' x = exists_ (construct 0) x) ∧
      (∀ x, get_children g' x = get_children (construct 0) x) ∧
      (∀ x, get_parents g' x = get_parents (construct 0) x) :=
  create_duplicate (construct 0) 0 [7] (by decide)

/-- C5 as stated fails: for an identifier that already exists and a parent list
with a missing identifier, `create` raises `PublicationAlreadyCreated`, not
`PublicationNotFound` (the check of line 158 comes first). -/
theorem create_missing_parent_counterexample :
    ¬ (∀ (g : CitationGraph) (id : Id) (ps : List Id), Reachable g →
        (∃ p ∈ ps, exists_ g p = false) →
        ∃ g', create g id ps = .raised .PublicationNotFound g') := by
  intro hall
  obtain ⟨g', hg'⟩ := hall (construct 0) 0 [7] (Reachable.construct 0) ⟨7, by simp, by decide⟩
  have e : create (construct 0) 0 [7] =
      .raised .PublicationAlreadyCreated (construct 0) := rfl
  rw [e] at hg'
  cases hg'

/-- C5, amended. When the parent list names an identifier that does not exist,
`create` leaves the container in the very state it was in and raises
`PublicationNotFound` if `id` does not exist yet, `PublicationAlreadyCreated` if
it does. -/
theorem create_missing_parent (g : CitationGraph) (id : Id) (ps : List Id)
    (hps : ∃ p ∈ ps, exists_ g p = false) :
    (exists_ g id = false → create g id ps = .raised .PublicationNotFound g) ∧
      (exists_ g id = true → create g id ps = .raised .PublicationAlreadyCreated g) := by
  constructor
  · intro hid
    have hall : ¬ ps.all (fun p => exists_ g p) = true := by
      simp only [List.all_eq_true, not_forall]
      obtain ⟨p, hp, hpe⟩ := hps
      exact ⟨p, hp, by simp [hpe]⟩
    simp [create, hid, hall]
  · intro hid
    simp [create, hid]

/-- Witness for C5: identifier `7` does not exist in the fresh graph. -/
theorem create_missing_parent_witness :
    (exists_ (construct 0) 1 = false →
        create (construct 0) 1 [0, 7] = .raised .PublicationNotFound (construct 0)) ∧
      (exists_ (construct 0) 1 = true →
        create (construct 0) 1 [0, 7] = .raised .PublicationAlreadyCreated (construct 0)) :=
  create_missing_parent (construct 0) 1 [0, 7] ⟨7, by simp, by decide⟩

end CG

/-! ## Claims about the failures of `add_citation` and `remove` -/

namespace CG

/-- C6. In every reachable state `add_citation(child, parent)` raises
`PublicationNotFound` exactly when `child` or `parent` does not exist, and
whenever it raises, the container is left in the very state it was in. -/
theorem add_citation_not_found (g : CitationGraph) (child_id parent_id : Id)
    (hr : Reachable g) :
    ((∃ g', add_citation g child_id parent_id = .raised .PublicationNotFound g') ↔
        (exists_ g child_id = false ∨ exists_ g parent_id = false)) ∧
      (∀ e g', add_citation g child_id parent_id = .raised e g' →
        e = .PublicationNotFound ∧ g' = g) := by
  have h := reachable_inv hr
  cases hc : g.mapGraph child_id with
  | none =>
    have e : add_citation g child_id parent_id = .raised .PublicationNotFound g := by
      simp [add_citation, hc]
    refine ⟨⟨fun _ => Or.inl (exists_false_iff.2 hc), fun _ => ⟨g, e⟩⟩, ?_⟩
    intro e' g' he
    rw [e] at he
    cases he
    exact ⟨rfl, rfl⟩
  | some c =>
    cases hp : g.mapGraph parent_id with
    | none =>
      have e : add_citation g child_id parent_id = .raised .PublicationNotFound g := by
        simp [add_citation, hc, hp]
      refine ⟨⟨fun _ => Or.inr (exists_false_iff.2 hp), fun _ => ⟨g, e⟩⟩, ?_⟩
      intro e' g' he
      rw [e] at he
      cases he
      exact ⟨rfl, rfl⟩
    | some p =>
      obtain ⟨cn, hcn, -⟩ := h.map_live child_id c hc
      obtain ⟨pn, hpn, -⟩ := h.map_live parent_id p hp
      have e := add_citation_eq hc hp hcn hpn
      refine ⟨⟨?_, ?_⟩, ?_⟩
      · rintro ⟨g', hg'⟩
        rw [e] at hg'
        cases hg'
      · rintro (h1 | h1)
        · rw [exists_false_iff.1 h1] at hc
          cases hc
        · rw [exists_false_iff.1 h1] at hp
          cases hp
      · intro e' g' he
        rw [e] at he
        cases he

/-- Witness for C6, on the fresh graph with root `0`. -/
theorem add_citation_not_found_witness :
    ((∃ g', add_citation (construct 0) 3 0 = .raised .PublicationNotFound g') ↔
        (exists_ (construct 0) 3 = false ∨ exists_ (construct 0) 0 = false)) ∧
      (∀ e g', add_citation (construct 0) 3 0 = .raised e g' →
        e = .PublicationNotFound ∧ g' = construct 0) :=
  add_citation_not_found (construct 0) 3 0 (Reachable.construct 0)

/-- C7. In every reachable state `remove` raises `TriedToRemoveRoot` on the root
identifier and `PublicationNotFound` on an identifier that does not exist; in
both cases the container is left in the very state it was in. -/
theorem remove_failures (g : CitationGraph) (hr : Reachable g) :
    (∃ r, get_root_id g = some r ∧ remove g r = .raised .TriedToRemoveRoot g) ∧
      (∀ id, exists_ g id = false → remove g id = .raised .PublicationNotFound g) := by
  have h := reachable_inv hr
  constructor
  · obtain ⟨r, hr1, hr2⟩ := get_root_id_eq h
    obtain ⟨n, hn⟩ := h.root_live
    exact ⟨r, hr1, by simp [remove, hr2, hn]⟩
  · intro id hid
    simp [remove, exists_false_iff.1 hid]

/-- Witness for C7: the graph with root `0` and a publication `1` citing it. -/
theorem remove_failures_witness :
    (∃ r, get_root_id exRA = some r ∧ remove exRA r = .raised .TriedToRemoveRoot exRA) ∧
      (∀ id, exists_ exRA id = false → remove exRA id = .raised .PublicationNotFound exRA) :=
  remove_failures exRA (Reachable.create 1 [0] (Reachable.construct 0) rfl)

end CG

/-! ## Claims about successful `add_citation` -/

namespace CG

theorem idsOf_reedge (g : CitationGraph) (C P : Addr → List Addr → List Addr)
    (l : List Addr) : idsOf (reedge g C P) l = idsOf g l := by
  unfold idsOf
  congr 1
  funext p
  cases hp : g.heap p <;> simp [reedge, hp]

theorem get_children_val {g : CitationGraph} (h : Inv g) {id : Id} {a : Addr} {n : Node}
    (hid : g.mapGraph id = some a) (ha : g.heap a = some n) :
    (get_children g id).val = some (idsOf g n.children) := by
  rw [get_children_eq h hid ha]; rfl

theorem get_parents_val_none {g : CitationGraph} {id : Id} (hid : g.mapGraph id = none) :
    (get_parents g id).val = none := by
  simp [get_parents, hid, Result.val]

theorem get_children_val_none {g : CitationGraph} {id : Id} (hid : g.mapGraph id = none) :
    (get_children g id).val = none := by
  simp [get_children, hid, Result.val]

theorem pubs_live {g : CitationGraph} {l : List Addr} {ids : List Id}
    (h : pubs g l = some ids) : ∀ p ∈ l, ∃ k, g.heap p = some k := by
  intro p hp
  cases hk : g.heap p with
  | some k => exact ⟨k, rfl⟩
  | none =>
    rw [pubs_none g hp hk] at h
    cases h

/-- What `pubs` yields is `idsOf`. -/
theorem pubs_some {g : CitationGraph} {l : List Addr} {ids : List Id}
    (h : pubs g l = some ids) : ids = idsOf g l := by
  rw [pubs_eq g l (pubs_live h)] at h
  exact (Option.some.inj h).symm

/-- In every reachable state `add_citation(child, parent)` on two existing
identifiers returns normally and adds one edge: `get_children(parent)` gains
`child`, the existing identifiers are the same, `get_parents` of every
identifier other than `child` and `get_children` of every identifier other
than `parent` behave as before, and whenever `get_parents(child)` returned
before the call, it returns afterwards, with `parent` added. -/
theorem add_citation_adds_edge (g : CitationGraph) (child_id parent_id : Id)
    (hr : Reachable g) (hc : exists_ g child_id = true) (hp : exists_ g parent_id = true) :
    ∃ g', add_citation g child_id parent_id = .returned () g' ∧
      (∀ x, exists_ g' x = exists_ g x) ∧
      (∀ l, (get_parents g child_id).val = some l →
        ∃ l', (get_parents g' child_id).val = some l' ∧ ∀ x, x ∈ l' ↔ x = parent_id ∨ x ∈ l) ∧
      ((get_parents g child_id).val = none → (get_parents g' child_id).val = none) ∧
      (∃ l l', (get_children g parent_id).val = some l ∧
        (get_children g' parent_id).val = some l' ∧ ∀ x, x ∈ l' ↔ x = child_id ∨ x ∈ l) ∧
      (∀ x, x ≠ child_id → (get_parents g' x).val = (get_parents g x).val) ∧
      (∀ x, x ≠ parent_id → (get_children g' x).val = (get_children g x).val) := by
  have h := reachable_inv hr
  obtain ⟨c, hcm⟩ := exists_iff.1 hc
  obtain ⟨p, hpm⟩ := exists_iff.1 hp
  obtain ⟨cn, hcn, -⟩ := h.map_live child_id c hcm
  obtain ⟨pn, hpn, -⟩ := h.map_live parent_id p hpm
  have e := add_citation_eq hcm hpm hcn hpn
  have hG : Inv (reedge g (addC c p) (addP c p)) := add_citation_inv h hcn hpn
  have hval : (get_parents (reedge g (addC c p) (addP c p)) child_id).val =
      pubs g (setInsert p cn.parents) := by
    rw [get_parents_val (g := reedge g (addC c p) (addP c p)) hcm (reedge_heap_of _ _ hcn),
      pubs_reedge]
    simp [addP]
  refine ⟨_, e, fun _ => rfl, ?_, ?_, ?_, ?_, ?_⟩
  · intro l hl
    rw [get_parents_val hcm hcn] at hl
    have hlive : ∀ q ∈ setInsert p cn.parents, ∃ k, g.heap q = some k := by
      intro q hq
      rcases (mem_setInsert _ _ _).1 hq with rfl | hq2
      · exact ⟨pn, hpn⟩
      · exact pubs_live hl q hq2
    refine ⟨_, hval.trans (pubs_eq g _ hlive), ?_⟩
    intro x
    rw [pubs_some hl, mem_idsOf h, mem_idsOf h]
    constructor
    · rintro ⟨q, hq, hx⟩
      rcases (mem_setInsert _ _ _).1 hq with rfl | hq2
      · exact Or.inl (map_inj h hx hpm)
      · exact Or.inr ⟨q, hq2, hx⟩
    · rintro (rfl | ⟨q, hq, hx⟩)
      · exact ⟨p, (mem_setInsert _ _ _).2 (Or.inl rfl), hpm⟩
      · exact ⟨q, (mem_setInsert _ _ _).2 (Or.inr hq), hx⟩
  · intro hnone
    rw [get_parents_val hcm hcn] at hnone
    rw [hval]
    cases hq : pubs g (setInsert p cn.parents) with
    | none => rfl
    | some ids =>
      exfalso
      have hlive : ∀ q ∈ cn.parents, ∃ k, g.heap q = some k := fun q hq2 =>
        pubs_live hq q ((mem_setInsert _ _ _).2 (Or.inr hq2))
      rw [pubs_eq g _ hlive] at hnone
      cases hnone
  · refine ⟨_, _, get_children_val h hpm hpn,
      get_children_val hG (g := reedge g (addC c p) (addP c p)) hpm
        (reedge_heap_of _ _ hpn), ?_⟩
    intro x
    rw [mem_idsOf hG, mem_idsOf h]
    simp only [addC, if_true]
    constructor
    · rintro ⟨q, hq, hx⟩
      rcases (mem_setInsert _ _ _).1 hq with rfl | hq2
      · exact Or.inl (map_inj h hx hcm)
      · exact Or.inr ⟨q, hq2, hx⟩
    · rintro (rfl | ⟨q, hq, hx⟩)
      · exact ⟨c, (mem_setInsert _ _ _).2 (Or.inl rfl), hcm⟩
      · exact ⟨q, (mem_setInsert _ _ _).2 (Or.inr hq), hx⟩
  · intro x hx
    cases hxm : g.mapGraph x with
    | none =>
      rw [get_parents_val_none hxm, get_parents_val_none (g := reedge g (addC c p) (addP c p)) hxm]
    | some a =>
      obtain ⟨n, hn, -⟩ := h.map_live x a hxm
      have hac : a ≠ c := by
        rintro rfl
        exact hx (map_inj h hxm hcm)
      rw [get_parents_val hxm hn,
        get_parents_val (g := reedge g (addC c p) (addP c p)) hxm (reedge_heap_of _ _ hn),
        pubs_reedge]
      simp [addP, hac]
  · intro x hx
    cases hxm : g.mapGraph x with
    | none =>
      rw [get_children_val_none hxm,
        get_children_val_none (g := reedge g (addC c p) (addP c p)) hxm]
    | some a =>
      obtain ⟨n, hn, -⟩ := h.map_live x a hxm
      have hap : a ≠ p := by
        rintro rfl
        exact hx (map_inj h hxm hpm)
      rw [get_children_val h hxm hn,
        get_children_val hG (g := reedge g (addC c p) (addP c p)) hxm (reedge_heap_of _ _ hn)]
      simp [addC, hap, idsOf_reedge]

end CG

namespace CG

theorem exRA_reachable : Reachable exRA :=
  Reachable.create 1 [0] (Reachable.construct 0) rfl

theorem exRAB_reachable : Reachable exRAB :=
  Reachable.create 2 [0] exRA_reachable rfl

theorem exRABC_reachable : Reachable exRABC :=
  Reachable.create 3 [1, 2] exRAB_reachable rfl

theorem exRBC_reachable : Reachable exRBC :=
  Reachable.remove 1 exRABC_reachable rfl

theorem exRAC_reachable : Reachable exRAC :=
  Reachable.remove 2 exRABC_reachable rfl

/-- C8 fails on the code, through `get_parents`: after `remove(2)` in the example
graph the node of `3` keeps the expired back reference to the node of `2`.
`add_citation(3, 0)` returns, but `get_parents(3)` is undefined both before and
after it: its loop erases the expired element under the range-for iterator
(line 135) and then increments that iterator. -/
theorem add_citation_get_parents_undefined :
    Reachable exRAC ∧ exists_ exRAC 3 = true ∧ exists_ exRAC 0 = true ∧
      add_citation exRAC 3 0 = .returned () exRACroot ∧
      get_parents exRAC 3 = .undefined ∧ get_parents exRACroot 3 = .undefined ∧
      (get_children exRACroot 0).val = some [1, 3] :=
  ⟨exRAC_reachable, by decide, by decide, rfl, rfl, rfl, by decide⟩

theorem reedge_idem (g : CitationGraph) (C P : Addr → List Addr → List Addr)
    (hC : ∀ x s, C x (C x s) = C x s) (hP : ∀ x s, P x (P x s) = P x s) :
    reedge (reedge g C P) C P = reedge g C P := by
  refine graph_ext rfl rfl (fun x => ?_) rfl
  cases hx : g.heap x <;> simp [reedge, hx, hC, hP]

/-- In every reachable state, `add_citation(child, parent)` on existing
identifiers succeeds twice in a row and the second call changes nothing;
afterwards `get_children(parent)` lists `child` exactly once, and
`get_parents(child)`, when it returns, lists `parent` exactly once. -/
theorem add_citation_idempotent (g : CitationGraph) (child_id parent_id : Id)
    (hr : Reachable g) (hc : exists_ g child_id = true) (hp : exists_ g parent_id = true) :
    ∃ g1, add_citation g child_id parent_id = .returned () g1 ∧
      add_citation g1 child_id parent_id = .returned () g1 ∧
      (∀ l, (get_parents g1 child_id).val = some l → l.count parent_id = 1) ∧
      (∃ l, (get_children g1 parent_id).val = some l ∧ l.count child_id = 1) := by
  have h := reachable_inv hr
  obtain ⟨c, hcm⟩ := exists_iff.1 hc
  obtain ⟨p, hpm⟩ := exists_iff.1 hp
  obtain ⟨cn, hcn, -⟩ := h.map_live child_id c hcm
  obtain ⟨pn, hpn, -⟩ := h.map_live parent_id p hpm
  have e := add_citation_eq hcm hpm hcn hpn
  have hG : Inv (reedge g (addC c p) (addP c p)) := add_citation_inv h hcn hpn
  have hcn1 := reedge_heap_of (addC c p) (addP c p) hcn
  have hpn1 := reedge_heap_of (addC c p) (addP c p) hpn
  refine ⟨_, e, ?_, ?_, ?_⟩
  · rw [add_citation_eq (g := reedge g (addC c p) (addP c p)) hcm hpm hcn1 hpn1]
    congr 1
    apply reedge_idem
    · intro x s
      unfold addC
      split
      · exact setInsert_idem _ _
      · rfl
    · intro x s
      unfold addP
      split
      · exact setInsert_idem _ _
      · rfl
  · intro l hl
    rw [get_parents_val (g := reedge g (addC c p) (addP c p)) hcm hcn1] at hl
    rw [pubs_some hl]
    apply List.count_eq_one_of_mem
    · exact idsOf_nodup hG (hG.nodup_parents c _ hcn1)
    · rw [mem_idsOf hG]
      exact ⟨p, by simp [addP, mem_setInsert], hpm⟩
  · refine ⟨_, get_children_val hG (g := reedge g (addC c p) (addP c p)) hpm hpn1, ?_⟩
    apply List.count_eq_one_of_mem
    · exact idsOf_nodup hG (hG.nodup_children p _ hpn1)
    · rw [mem_idsOf hG]
      exact ⟨c, by simp [addC, mem_setInsert], hcm⟩

/-- C9 fails on the code, through `get_parents`: in the state after `remove(2)`,
`add_citation(3, 1)` succeeds twice and the second call changes nothing, but
`get_parents(3)` does not list `1` exactly once: it is undefined, because its
loop erases the expired back reference to the node of `2` under the range-for
iterator (line 135) and then increments that iterator. -/
theorem add_citation_twice_get_parents_undefined :
    Reachable exRAC ∧ exists_ exRAC 3 = true ∧ exists_ exRAC 1 = true ∧
      add_citation exRAC 3 1 = .returned () exRACagain ∧
      add_citation exRACagain 3 1 = .returned () exRACagain ∧
      get_parents exRACagain 3 = .undefined ∧
      (get_children exRACagain 1).val = some [3] := by
  have e : add_citation exRAC 3 1 = .returned () exRACagain := rfl
  obtain ⟨g1, h1, h2, -, -⟩ :=
    add_citation_idempotent exRAC 3 1 exRAC_reachable (by decide) (by decide)
  rw [e] at h1
  cases h1
  exact ⟨exRAC_reachable, by decide, by decide, e, h2, rfl, by decide⟩

end CG

/-! ## Edge symmetry -/

namespace CG

/-- In every reachable state and for all existing identifiers `x` and `p`: when
`get_parents(x)` returns, it lists `p` exactly when `get_children(p)` lists
`x`, and every identifier it lists exists. -/
theorem edge_symmetry (g : CitationGraph) (x p : Id) (hr : Reachable g)
    (hx : exists_ g x = true) (hp : exists_ g p = true) :
    ∀ lp, (get_parents g x).val = some lp →
      ∃ lc, (get_children g p).val = some lc ∧
        (p ∈ lp ↔ x ∈ lc) ∧ ∀ q ∈ lp, exists_ g q = true := by
  have h := reachable_inv hr
  obtain ⟨xa, hxm⟩ := exists_iff.1 hx
  obtain ⟨pa, hpm⟩ := exists_iff.1 hp
  obtain ⟨n, hn, -⟩ := h.map_live x xa hxm
  obtain ⟨m, hm, -⟩ := h.map_live p pa hpm
  intro lp hlp
  rw [get_parents_val hxm hn] at hlp
  rw [pubs_some hlp]
  refine ⟨_, get_children_val h hpm hm, ?_, ?_⟩
  · rw [mem_idsOf h, mem_idsOf h]
    constructor
    · rintro ⟨q, hq, hpq⟩
      rw [hpm] at hpq
      cases hpq
      exact ⟨xa, h.parent_sym_full hn hq hm, hxm⟩
    · rintro ⟨c, hc, hxc⟩
      rw [hxm] at hxc
      cases hxc
      obtain ⟨k, hk, hpk⟩ := h.child_live pa m xa hm hc
      rw [hn] at hk
      cases hk
      exact ⟨pa, hpk, hpm⟩
  · intro q hq
    obtain ⟨a, -, hqa⟩ := (mem_idsOf h).1 hq
    exact exists_iff.2 ⟨a, hqa⟩

/-- C10 fails on the code, through `get_parents`: after `remove(2)` in the example
graph, `3` and `1` exist and `get_children(1)` lists `3`, but `get_parents(3)`
does not return a list to compare with.  The node of `3` keeps the expired
back reference to the node of `2`; the loop erases it under the range-for
iterator (line 135) and then increments that iterator, instead of discarding
it. -/
theorem get_parents_erases_under_iterator :
    Reachable exRAC ∧ exists_ exRAC 3 = true ∧ exists_ exRAC 1 = true ∧
      (get_children exRAC 1).val = some [3] ∧ get_parents exRAC 3 = .undefined :=
  ⟨exRAC_reachable, by decide, by decide, by decide, rfl⟩

/-- C2 fails on the code: after `remove(1)` in the example graph the node of `3`
keeps an expired back reference to the node of `1`; `remove(3)` then calls
`parent.lock()->children` (line 250) on it, a null pointer dereference. -/
theorem remove_dereferences_expired_parent :
    Reachable exRBC ∧ exists_ exRBC 3 = true ∧ get_root_id exRBC = some 0 ∧
      remove exRBC 3 = .undefined :=
  ⟨exRBC_reachable, by decide, by decide, rfl⟩

end CG

/-! ## Cascading removal -/

namespace CG

theorem childStep_iff {g : CitationGraph} (h : Inv g) {x y : Id} :
    ChildStep g x y ↔ ∃ a b, g.mapGraph x = some a ∧ g.mapGraph y = some b ∧ Edge g a b := by
  constructor
  · rintro ⟨l, hl, hy⟩
    cases hxm : g.mapGraph x with
    | none =>
      rw [get_children_val_none hxm] at hl
      cases hl
    | some a =>
      obtain ⟨n, hn, -⟩ := h.map_live x a hxm
      rw [get_children_val h hxm hn] at hl
      cases hl
      obtain ⟨b, hb, hyb⟩ := (mem_idsOf h).1 hy
      exact ⟨a, b, rfl, hyb, n, hn, hb⟩
  · rintro ⟨a, b, hxm, hyb, n, hn, hb⟩
    exact ⟨_, get_children_val h hxm hn, (mem_idsOf h).2 ⟨b, hb, hyb⟩⟩

theorem map_pubAt {g : CitationGraph} (h : Inv g) {a : Addr} {n : Node}
    (hn : g.heap a = some n) : g.mapGraph (pubAt g a) = some a := by
  have : pubAt g a = n.pub := by simp [pubAt, hn]
  rw [this]
  exact (h.live_map a n hn).1

theorem pubAt_of_map {g : CitationGraph} (h : Inv g) {i : Id} {a : Addr}
    (hi : g.mapGraph i = some a) : pubAt g a = i := by
  obtain ⟨n, hn, hpub⟩ := h.map_live i a hi
  simp [pubAt, hn, hpub]

theorem childStep_of_edge {g : CitationGraph} (h : Inv g) {u v : Addr} (e : Edge g u v) :
    ChildStep g (pubAt g u) (pubAt g v) := by
  obtain ⟨m, hm, hv⟩ := e
  obtain ⟨k, hk, -⟩ := h.child_live u m v hm hv
  exact (childStep_iff h).2 ⟨u, v, map_pubAt h hm, map_pubAt h hk, m, hm, hv⟩

theorem edge_acyclic {g : CitationGraph} (h : Inv g) (hac : Acyclic g) (a : Addr) :
    ¬ Relation.TransGen (Edge g) a a := fun hcyc =>
  hac (pubAt g a) (Relation.TransGen.lift (pubAt g) (fun _ _ e => childStep_of_edge h e) hcyc)

/-- In an acyclic well-formed state every live node is reachable from the root
through ownership edges. -/
theorem live_reachable {g : CitationGraph} (h : Inv g)
    (hac : ∀ a, ¬ Relation.TransGen (Edge g) a a) :
    ∀ x n, g.heap x = some n → Relation.ReflTransGen (Edge g) g.root x := by
  haveI : IsTrans (Fin g.next) (fun u v => Relation.TransGen (Edge g) u.1 v.1) :=
    ⟨fun _ _ _ h1 h2 => h1.trans h2⟩
  haveI : IsIrrefl (Fin g.next) (fun u v => Relation.TransGen (Edge g) u.1 v.1) :=
    ⟨fun u => hac u.1⟩
  have hwf : WellFounded (fun u v : Fin g.next => Relation.TransGen (Edge g) u.1 v.1) :=
    Finite.wellFounded_of_trans_of_irrefl _
  have key : ∀ u : Fin g.next, ∀ n, g.heap u.1 = some n →
      Relation.ReflTransGen (Edge g) g.root u.1 := by
    intro u
    induction u using hwf.induction with
    | _ u ih =>
      intro n hn
      rcases h.owner u.1 n hn with h1 | h1 | ⟨b, m, hm, hu⟩
      · rw [h1]
      · simp at h1
      · have hb := ih ⟨b, h.bound b m hm⟩ (Relation.TransGen.single ⟨m, hm, hu⟩) m hm
        exact Relation.ReflTransGen.tail hb ⟨m, hm, hu⟩
  intro x n hn
  exact key ⟨x, h.bound x n hn⟩ n hn

theorem cascade_edge {work : List Addr} {g g' : CitationGraph} (hc : Cascade work g g')
    {b c : Addr} (e : Edge g' b c) : Edge g b c := by
  obtain ⟨m, hm, hcm⟩ := e
  exact ⟨m, (cascade_frame hc).2.2.1 b m hm, hcm⟩

end CG

namespace CG

theorem unlink_edge {g : CitationGraph} (h : Inv g) {a : Addr} {n : Node}
    (ha : g.heap a = some n) {b c : Addr} :
    Edge (reedge g (unlinkC a n.parents) (fun _ s => s)) b c ↔ Edge g b c ∧ c ≠ a := by
  rw [reedge_edge]
  constructor
  · rintro ⟨m, hm, hc⟩
    obtain ⟨h1, h2⟩ := mem_unlinkC.1 hc
    refine ⟨⟨m, hm, h1⟩, ?_⟩
    rintro rfl
    obtain ⟨k, hk, hbk⟩ := h.child_live b m c hm h1
    rw [ha] at hk
    cases hk
    exact h2 hbk rfl
  · rintro ⟨⟨m, hm, h1⟩, hca⟩
    exact ⟨m, hm, mem_unlinkC.2 ⟨h1, fun _ => hca⟩⟩

theorem root_ne_of_id {g : CitationGraph} (h : Inv g) {id : Id} {a : Addr}
    (hid : g.mapGraph id = some a) (hroot : get_root_id g ≠ some id) : a ≠ g.root := by
  rintro rfl
  obtain ⟨n, hn, hpub⟩ := h.map_live id _ hid
  apply hroot
  simp [get_root_id, hn, hpub]

/-- A returning `remove` went through the loop without meeting an expired parent,
and its result is the outcome of the cascade on the unlinked state. -/
theorem remove_returned {g g' : CitationGraph} (h : Inv g) {id : Id} {a : Addr} {n : Node}
    (hid : g.mapGraph id = some a) (ha : g.heap a = some n) (hroot : a ≠ g.root)
    (hrem : remove g id = .returned () g') :
    Cascade [a] (reedge g (unlinkC a n.parents) (fun _ s => s)) g' := by
  by_cases hlive : ∀ p ∈ n.parents, ∃ m, g.heap p = some m
  · rw [remove_eq h hid ha hroot hlive] at hrem
    cases hr : release [a] (reedge g (unlinkC a n.parents) (fun _ s => s)) with
    | none =>
      rw [hr] at hrem
      cases hrem
    | some g2 =>
      rw [hr] at hrem
      cases hrem
      exact release_cascade hr
  · push_neg at hlive
    obtain ⟨p, hp, hexp⟩ := hlive
    have hexp2 : g.heap p = none := by
      cases hq : g.heap p with
      | none => rfl
      | some m => exact absurd hq (hexp m)
    rw [remove_expired hid ha hroot hp hexp2] at hrem
    cases hrem

end CG

namespace CG

theorem exRABC_step_lt {x y : Id} (hs : ChildStep exRABC x y) : x < y := by
  have h := reachable_inv exRABC_reachable
  obtain ⟨a, b, hx, hy, m, hm, hb⟩ := (childStep_iff h).1 hs
  have hx2 := pubAt_of_map h hx
  have hy2 := pubAt_of_map h hy
  have ha : a < 4 := h.bound a m hm
  have h0 : exRABC.heap 0 = some ⟨0, [1, 2], [], 0, true⟩ := by decide
  have h1 : exRABC.heap 1 = some ⟨1, [3], [0], 1, true⟩ := by decide
  have h2 : exRABC.heap 2 = some ⟨2, [3], [0], 2, true⟩ := by decide
  have h3 : exRABC.heap 3 = some ⟨3, [], [1, 2], 3, true⟩ := by decide
  have p0 : pubAt exRABC 0 = 0 := by decide
  have p1 : pubAt exRABC 1 = 1 := by decide
  have p2 : pubAt exRABC 2 = 2 := by decide
  have p3 : pubAt exRABC 3 = 3 := by decide
  interval_cases a
  · rw [h0] at hm
    cases hm
    simp only [List.mem_cons, List.mem_singleton, List.not_mem_nil, or_false] at hb
    rcases hb with rfl | rfl
    · rw [← hx2, ← hy2, p0, p1]; decide
    · rw [← hx2, ← hy2, p0, p2]; decide
  · rw [h1] at hm
    cases hm
    simp only [List.mem_singleton] at hb
    subst hb
    rw [← hx2, ← hy2, p1, p3]; decide
  · rw [h2] at hm
    cases hm
    simp only [List.mem_singleton] at hb
    subst hb
    rw [← hx2, ← hy2, p2, p3]; decide
  · rw [h3] at hm
    cases hm
    simp at hb

theorem exRABC_acyclic : Acyclic exRABC := by
  intro x hx
  have key : ∀ u v, Relation.TransGen (ChildStep exRABC) u v → u < v := by
    intro u v huv
    induction huv with
    | single hs => exact exRABC_step_lt hs
    | tail _ hs ih => exact lt_trans ih (exRABC_step_lt hs)
  exact lt_irrefl x (key x x hx)

end CG

/-! ## Further facts about `remove` and the step budget -/

namespace CG

/-- The cascade at the end of `create` never exhausts its step budget. -/
theorem create_ne_fuelExhausted {g : CitationGraph} (h : Inv g) (id : Id) (ps : List Id) :
    create g id ps ≠ .fuelExhausted := by
  by_cases hid : exists_ g id = true
  · simp [create, hid]
  · have hid2 : exists_ g id = false := by simpa using hid
    by_cases hps : ∀ p ∈ ps, exists_ g p = true
    · rw [create_eq h hid2 hps]
      obtain ⟨g3, hg3⟩ := release_total [g.next] _ (create_linked_inv h ps hid2).bound
      rw [hg3]
      simp
    · have hall : ¬ ps.all (fun p => exists_ g p) = true := by
        simpa [List.all_eq_true] using hps
      simp [create, hid2, hall]

/-- The cascade at the end of `remove` never exhausts its step budget. -/
theorem remove_ne_fuelExhausted {g : CitationGraph} (h : Inv g) (id : Id) :
    remove g id ≠ .fuelExhausted := by
  cases hid : g.mapGraph id with
  | none => simp [remove, hid]
  | some a =>
    obtain ⟨n, ha, -⟩ := h.map_live id a hid
    by_cases hroot : a = g.root
    · subst hroot
      simp [remove, hid, ha]
    · by_cases hlive : ∀ p ∈ n.parents, ∃ m, g.heap p = some m
      · rw [remove_eq h hid ha hroot hlive]
        obtain ⟨g2, hg2⟩ := release_total [a] _ (unlink_inv h ha hroot).bound
        rw [hg2]
        simp
      · push_neg at hlive
        obtain ⟨p, hp, hexp⟩ := hlive
        have hexp2 : g.heap p = none := by
          cases hq : g.heap p with
          | none => rfl
          | some m => exact absurd hq (hexp m)
        rw [remove_expired hid ha hroot hp hexp2]
        simp

/-- When no back reference of the node has expired, `remove` returns; afterwards
the identifier does not exist and no `get_children` lists it. -/
theorem remove_completes {g : CitationGraph} (h : Inv g) {id : Id} {a : Addr} {n : Node}
    (hid : g.mapGraph id = some a) (ha : g.heap a = some n) (hroot : a ≠ g.root)
    (hlive : ∀ p ∈ n.parents, ∃ m, g.heap p = some m) :
    ∃ g', remove g id = .returned () g' ∧ exists_ g' id = false ∧
      ∀ x l, (get_children g' x).val = some l → id ∉ l := by
  have hL := unlink_inv h ha hroot
  obtain ⟨g', hg'⟩ := release_total [a] _ hL.bound
  have hrem : remove g id = .returned () g' := by
    rw [remove_eq h hid ha hroot hlive, hg']
  have hG' : Inv g' := cascade_inv (release_cascade hg') hL
  have hgone : g'.mapGraph id = none := by
    cases hq : g'.mapGraph id with
    | none => rfl
    | some b =>
      exfalso
      have hb : g.mapGraph id = some b := (cascade_frame (release_cascade hg')).2.2.2 id b hq
      rw [hid] at hb
      cases hb
      obtain ⟨k, hk, -⟩ := hG'.map_live id a hq
      rcases hG'.owner a k hk with h1 | h1 | ⟨b, e⟩
      · exact hroot (by rw [← h1]; exact (cascade_frame (release_cascade hg')).1)
      · simp at h1
      · exact ((unlink_edge h ha).1 (cascade_edge (release_cascade hg') e)).2 rfl
  refine ⟨g', hrem, exists_false_iff.2 hgone, ?_⟩
  intro x l hl hmem
  cases hxm : g'.mapGraph x with
  | none =>
    rw [get_children_val_none hxm] at hl
    cases hl
  | some xa =>
    obtain ⟨m, hm, -⟩ := hG'.map_live x xa hxm
    rw [get_children_val hG' hxm hm] at hl
    cases hl
    obtain ⟨b, -, hb⟩ := (mem_idsOf hG').1 hmem
    rw [hgone] at hb
    cases hb

end CG

/-! ## The freshly constructed graph -/

namespace CG

/-- C15. The graph freshly constructed with root `r`: `get_root_id()` is `r`, `r`
exists, no other identifier exists, and `get_parents(r)` and
`get_children(r)` are both empty. -/
theorem construct_fresh (r : Id) :
    get_root_id (construct r) = some r ∧ exists_ (construct r) r = true ∧
      (∀ x, x ≠ r → exists_ (construct r) x = false) ∧
      (get_parents (construct r) r).val = some [] ∧
      get_children (construct r) r = .returned [] (construct r) := by
  have hmap : (construct r).mapGraph r = some 0 := by simp [construct]
  have hheap : (construct r).heap 0 = some ((Node.new r).setIterator r) := by
    simp [construct]
  refine ⟨?_, ?_, ?_, ?_, ?_⟩
  · simp [get_root_id, construct, Node.new, Node.setIterator]
  · exact exists_iff.2 ⟨0, hmap⟩
  · intro x hx
    simp [exists_, construct, Function.update, hx]
  · exact get_parents_val hmap hheap
  · exact get_children_eq (construct_inv r) hmap hheap

end CG

/-! ## `create` without parents, and the frame of `create` -/

namespace CG

theorem release_unowned {g : CitationGraph} {a : Addr} {n : Node}
    (ho : owned g [] a = false) (hn : g.heap a = some n) :
    release [a] g =
      destroyLoop (edgeCount g g.next) (n.children ++ []) (deleteYourselfFromMap g a n) := by
  have : releaseFuel g [a] = edgeCount g g.next + 1 := by
    simp [releaseFuel, Nat.add_comm]
  unfold release
  rw [this]
  simp [destroyLoop, ho, hn]

theorem pubs_congr {g g' : CitationGraph} (hh : g'.heap = g.heap) (l : List Addr) :
    pubs g' l = pubs g l := by
  induction l with
  | nil => rfl
  | cons c cs ih => simp only [pubs, hh, ih]

/-- The values `get_children` and `get_parents` return depend on the index and
the heap only. -/
theorem val_congr {g g' : CitationGraph} (hm : g'.mapGraph = g.mapGraph)
    (hh : g'.heap = g.heap) (x : Id) :
    (get_children g' x).val = (get_children g x).val ∧
      (get_parents g' x).val = (get_parents g x).val := by
  constructor
  · unfold get_children
    rw [hm, hh]
    cases hx : g.mapGraph x with
    | none => rfl
    | some a =>
      dsimp only
      cases ha : g.heap a with
      | none => rfl
      | some n =>
        dsimp only
        rw [pubs_congr hh]
        cases pubs g n.children <;> rfl
  · unfold get_parents
    rw [hm, hh]
    cases hx : g.mapGraph x with
    | none => rfl
    | some a =>
      dsimp only
      cases ha : g.heap a with
      | none => rfl
      | some n =>
        dsimp only
        rw [pubs_congr hh]
        cases pubs g n.parents <;> rfl

/-- The state `create(id, [])` returns: the node was allocated, registered,
and destroyed again at the end of the call; only the allocation counter
moved. -/
theorem create_empty {g : CitationGraph} (h : Inv g) {id : Id}
    (hid : exists_ g id = false) :
    create g id [] = .returned () { g with next := g.next + 1 } := by
  have hps : ∀ p ∈ ([] : List Id), exists_ g p = true := by simp
  rw [create_eq h hid hps]
  have hL := create_linked_inv h [] hid
  simp only [List.filterMap_nil] at hL ⊢
  have hheap := reedge_heap_of (linkC g.next []) (fun _ s => s)
    (createAlloc_heap_new g id [])
  obtain ⟨rn, hrn⟩ := h.root_live
  have hown : owned (reedge (createAlloc g id []) (linkC g.next []) (fun _ s => s)) []
      g.next = false := by
    rw [Bool.eq_false_iff]
    intro ho
    rcases (owned_iff hL.bound [] g.next).1 ho with h1 | h1 | ⟨b, e⟩
    · exact live_ne_next h hrn h1
    · simp at h1
    · obtain ⟨m, hm, hc⟩ := reedge_edge.1 e
      have hc2 : g.next ∈ m.children := by simpa [linkC] using hc
      obtain ⟨hb, m2, hm2, hc3⟩ := createAlloc_edge.1 ⟨m, hm, hc2⟩
      obtain ⟨k, hk, -⟩ := h.child_live b m2 _ hm2 hc3
      exact live_ne_next h hk rfl
  rw [release_unowned hown hheap]
  have hch : (linkC g.next [] g.next (createNode id []).children) = [] := by
    simp [linkC, createNode_children]
  simp only [hch, List.append_nil, destroyLoop]
  congr 1
  have hfresh : g.heap g.next = none := by
    cases hn : g.heap g.next with
    | none => rfl
    | some n => exact absurd rfl (live_ne_next h hn)
  refine graph_ext ?_ rfl (fun x => ?_) rfl
  · funext i
    by_cases hi : i = id
    · subst hi
      simp [deleteYourselfFromMap, reedge, createAlloc, createNode_seted, createNode_it,
        exists_false_iff.1 hid]
    · simp [deleteYourselfFromMap, reedge, createAlloc, createNode_seted, createNode_it,
        Function.update, hi]
  · by_cases hx : x = g.next
    · subst hx
      simp [deleteYourselfFromMap, hfresh]
    · cases hgx : g.heap x <;>
        simp [deleteYourselfFromMap, reedge, createAlloc, Function.update, hx, hgx, linkC]

end CG

namespace CG

/-- C19. In every reachable state, `create(id, [])` with a fresh `id` and an empty
parent list returns without raising and changes nothing that can be observed:
`id` still does not exist (the unowned node is destroyed and deregistered on
return), the existing identifiers and every `get_children` and `get_parents`
are as before; only the allocation counter of the embedding has moved. -/
theorem create_no_parents (g : CitationGraph) (id : Id) (hr : Reachable g)
    (hid : exists_ g id = false) :
    ∃ g', create g id [] = .returned () g' ∧ exists_ g' id = false ∧
      (∀ x, exists_ g' x = exists_ g x) ∧
      (∀ x, (get_children g' x).val = (get_children g x).val) ∧
      (∀ x, (get_parents g' x).val = (get_parents g x).val) ∧
      g'.mapGraph = g.mapGraph ∧ g'.heap = g.heap ∧ g'.root = g.root :=
  ⟨{ g with next := g.next + 1 }, create_empty (reachable_inv hr) hid, hid, fun _ => rfl,
    fun x => (@val_congr g { g with next := g.next + 1 } rfl rfl x).1,
    fun x => (@val_congr g { g with next := g.next + 1 } rfl rfl x).2, rfl, rfl, rfl⟩

/-- Witness for C19: `create(5, [])` on the example graph. -/
theorem create_no_parents_witness :
    ∃ g', create exRABC 5 [] = .returned () g' ∧ exists_ g' 5 = false ∧
      (∀ x, exists_ g' x = exists_ exRABC x) ∧
      (∀ x, (get_children g' x).val = (get_children exRABC x).val) ∧
      (∀ x, (get_parents g' x).val = (get_parents exRABC x).val) ∧
      g'.mapGraph = exRABC.mapGraph ∧ g'.heap = exRABC.heap ∧ g'.root = exRABC.root :=
  create_no_parents exRABC 5 exRABC_reachable (by decide)

theorem idsOf_createAlloc (g : CitationGraph) (id : Id) (ptrs : List Addr) (l : List Addr)
    (hl : ∀ p ∈ l, p ≠ g.next) : idsOf (createAlloc g id ptrs) l = idsOf g l := by
  unfold idsOf
  apply List.filterMap_congr
  intro p hp
  rw [createAlloc_heap_old g id ptrs (hl p hp)]

/-- What a returning `create` implies about its arguments. -/
theorem create_returned_args {g g' : CitationGraph} {id : Id} {ps : List Id}
    (hret : create g id ps = .returned () g') :
    exists_ g id = false ∧ ∀ p ∈ ps, exists_ g p = true := by
  by_cases hid : exists_ g id = true
  · simp [create, hid] at hret
  · have hid2 : exists_ g id = false := by simpa using hid
    refine ⟨hid2, ?_⟩
    by_contra hps
    have hall : ¬ ps.all (fun p => exists_ g p) = true := by
      simpa [List.all_eq_true] using hps
    simp [create, hid2, hall] at hret

end CG

namespace CG

/-- C20. A returning `create(id, parents)` changes nothing but the new node and
its edges: every identifier that existed still exists, no identifier other
than `id` comes into existence, `get_parents(x)` is unchanged for every
existing `x`, `get_children(x)` is unchanged for every `x` other than `id` and
the parents, and `get_children(p)` of a parent `p` is what it was (where `id`
did not occur) plus `id`. -/
theorem create_frame (g g' : CitationGraph) (id : Id) (ps : List Id) (hr : Reachable g)
    (hret : create g id ps = .returned () g') :
    (∀ x, exists_ g x = true → exists_ g' x = true) ∧
      (∀ x, x ≠ id → exists_ g' x = true → exists_ g x = true) ∧
      (∀ x, exists_ g x = true → (get_parents g' x).val = (get_parents g x).val) ∧
      (∀ x, x ≠ id → x ∉ ps → (get_children g' x).val = (get_children g x).val) ∧
      (∀ p ∈ ps, ∃ l l', (get_children g p).val = some l ∧
        (get_children g' p).val = some l' ∧ id ∉ l ∧ ∀ y, y ∈ l' ↔ y = id ∨ y ∈ l) := by
  have h := reachable_inv hr
  obtain ⟨hid, hps⟩ := create_returned_args hret
  have hidn := exists_false_iff.1 hid
  by_cases hne : ps = []
  · subst hne
    rw [create_empty h hid] at hret
    cases hret
    refine ⟨fun _ hx => hx, fun _ _ hx => hx,
      fun x _ => (@val_congr g { g with next := g.next + 1 } rfl rfl x).2,
      fun x _ _ => (@val_congr g { g with next := g.next + 1 } rfl rfl x).1, ?_⟩
    intro p hp
    simp at hp
  · rw [create_returns h hid hne hps] at hret
    cases hret
    have hG : Inv (reedge (createAlloc g id (ps.filterMap g.mapGraph))
        (linkC g.next (ps.filterMap g.mapGraph)) (fun _ s => s)) :=
      create_inv h (by rw [create_returns h hid hne hps]; rfl)
    have hmapold : ∀ x, x ≠ id →
        (reedge (createAlloc g id (ps.filterMap g.mapGraph))
          (linkC g.next (ps.filterMap g.mapGraph)) (fun _ s => s)).mapGraph x =
          g.mapGraph x := by
      intro x hx
      rw [createLinked_map]
      simp [hx]
    have hmapid : (reedge (createAlloc g id (ps.filterMap g.mapGraph))
        (linkC g.next (ps.filterMap g.mapGraph)) (fun _ s => s)).mapGraph id =
        some g.next := by
      rw [createLinked_map]; simp
    have hne_id : ∀ x, exists_ g x = true → x ≠ id := by
      rintro x hx rfl
      rw [hid] at hx
      cases hx
    have hheap : ∀ a m, g.heap a = some m →
        (reedge (createAlloc g id (ps.filterMap g.mapGraph))
          (linkC g.next (ps.filterMap g.mapGraph)) (fun _ s => s)).heap a =
          some { m with
            children := linkC g.next (ps.filterMap g.mapGraph) a m.children
            parents := m.parents } := fun a m hm =>
      reedge_heap_of _ _ ((createAlloc_heap_old g id _ (live_ne_next h hm)).trans hm)
    have hids : ∀ l : List Addr, (∀ p ∈ l, p ≠ g.next) →
        idsOf (reedge (createAlloc g id (ps.filterMap g.mapGraph))
          (linkC g.next (ps.filterMap g.mapGraph)) (fun _ s => s)) l = idsOf g l := by
      intro l hl
      rw [idsOf_reedge, idsOf_createAlloc g id _ l hl]
    refine ⟨?_, ?_, ?_, ?_, ?_⟩
    · intro x hx
      obtain ⟨a, ha⟩ := exists_iff.1 hx
      exact exists_iff.2 ⟨a, (hmapold x (hne_id x hx)).trans ha⟩
    · intro x hx hx'
      obtain ⟨a, ha⟩ := exists_iff.1 hx'
      exact exists_iff.2 ⟨a, (hmapold x hx).symm.trans ha⟩
    · intro x hx
      obtain ⟨a, ha⟩ := exists_iff.1 hx
      obtain ⟨m, hm, -⟩ := h.map_live x a ha
      rw [get_parents_val ha hm,
        get_parents_val ((hmapold x (hne_id x hx)).trans ha) (hheap a m hm), pubs_reedge]
      apply pubs_congr_on
      intro p hp
      rw [createAlloc_heap_old g id _ (Nat.ne_of_lt (h.parents_bound a m p hm hp))]
    · intro x hx hxps
      cases hxm : g.mapGraph x with
      | none =>
        rw [get_children_val_none hxm, get_children_val_none ((hmapold x hx).trans hxm)]
      | some a =>
        obtain ⟨m, hm, -⟩ := h.map_live x a hxm
        rw [get_children_val h hxm hm,
          get_children_val hG ((hmapold x hx).trans hxm) (hheap a m hm)]
        have hnot : a ∉ ps.filterMap g.mapGraph := by
          intro ha
          obtain ⟨y, hy, hya⟩ := List.mem_filterMap.1 ha
          exact hxps (map_inj h hxm hya ▸ hy)
        have hch : linkC g.next (ps.filterMap g.mapGraph) a m.children = m.children := by
          simp [linkC, hnot]
        simp only [hch]
        exact congrArg some (hids m.children (fun c hc => by
          obtain ⟨k, hk, -⟩ := h.child_live a m c hm hc
          exact live_ne_next h hk))
    · intro p hp
      obtain ⟨a, ha⟩ := exists_iff.1 (hps p hp)
      obtain ⟨m, hm, -⟩ := h.map_live p a ha
      have hpid := hne_id p (hps p hp)
      refine ⟨_, _, get_children_val h ha hm,
        get_children_val hG ((hmapold p hpid).trans ha) (hheap a m hm), ?_, ?_⟩
      · intro hmem
        obtain ⟨c, -, hc⟩ := (mem_idsOf h).1 hmem
        rw [hidn] at hc
        cases hc
      · intro y
        rw [mem_idsOf hG, mem_idsOf h]
        have hamem : a ∈ ps.filterMap g.mapGraph := List.mem_filterMap.2 ⟨p, hp, ha⟩
        constructor
        · rintro ⟨c, hc, hyc⟩
          rcases mem_linkC.1 hc with ⟨rfl, -⟩ | hc2
          · exact Or.inl (map_inj hG hyc hmapid)
          · right
            have hyid : y ≠ id := by
              rintro rfl
              rw [hmapid] at hyc
              obtain ⟨k, hk, -⟩ := h.child_live a m c hm hc2
              exact live_ne_next h hk (Option.some.inj hyc).symm
            exact ⟨c, hc2, (hmapold y hyid).symm.trans hyc⟩
        · rintro (rfl | ⟨c, hc, hyc⟩)
          · exact ⟨g.next, mem_linkC.2 (Or.inl ⟨rfl, hamem⟩), hmapid⟩
          · have hyid : y ≠ id := by
              rintro rfl
              rw [hidn] at hyc
              cases hyc
            exact ⟨c, mem_linkC.2 (Or.inr hc), (hmapold y hyid).trans hyc⟩

/-- Witness for C20: the call `create(3, [1, 2])` that builds the example graph. -/
theorem create_frame_witness :
    (∀ x, exists_ exRAB x = true → exists_ exRABC x = true) ∧
      (∀ x, x ≠ 3 → exists_ exRABC x = true → exists_ exRAB x = true) ∧
      (∀ x, exists_ exRAB x = true →
        (get_parents exRABC x).val = (get_parents exRAB x).val) ∧
      (∀ x, x ≠ 3 → x ∉ [1, 2] → (get_children exRABC x).val = (get_children exRAB x).val) ∧
      (∀ p ∈ [1, 2], ∃ l l', (get_children exRAB p).val = some l ∧
        (get_children exRABC p).val = some l' ∧ 3 ∉ l ∧ ∀ y, y ∈ l' ↔ y = 3 ∨ y ∈ l) :=
  create_frame exRAB exRABC 3 [1, 2] exRAB_reachable rfl

end CG

/-! ## The index as a registry of live nodes -/

namespace CG

end CG

/-! ## The root across calls -/

namespace CG

theorem reachableFrom_reachable {r : Id} {g : CitationGraph} (h : ReachableFrom r g) :
    Reachable g := by
  induction h with
  | construct => exact Reachable.construct r
  | call c _ hrun ih =>
    cases c with
    | create id ps => exact Reachable.create id ps ih hrun
    | add_citation ci pi => exact Reachable.add_citation ci pi ih hrun
    | remove id => exact Reachable.remove id ih hrun
    | get_parents id => exact Reachable.get_parents id ih hrun

theorem rootUncited_reachable {g : CitationGraph} (h : ReachableRootUncited g) :
    Reachable g := by
  induction h with
  | construct r => exact Reachable.construct r
  | call c _ _ hrun ih =>
    cases c with
    | create id ps => exact Reachable.create id ps ih hrun
    | add_citation ci pi => exact Reachable.add_citation ci pi ih hrun
    | remove id => exact Reachable.remove id ih hrun
    | get_parents id => exact Reachable.get_parents id ih hrun

/-- What a call does to the root node: the `root` pointer stays, the node behind
it stays alive with its identifier, and its `parents` set stays empty unless
the call is an `add_citation` with the root as the child. -/
theorem run_root {g g' : CitationGraph} (h : Inv g) (c : Call) (hrun : c.run g = some g') :
    g'.root = g.root ∧ ∃ m m', g.heap g.root = some m ∧ g'.heap g.root = some m' ∧
      m'.pub = m.pub ∧ (¬ c.childIsRoot g → m.parents = [] → m'.parents = []) := by
  obtain ⟨rn, hrn⟩ := h.root_live
  have hsame : g' = g → g'.root = g.root ∧ ∃ m m', g.heap g.root = some m ∧
      g'.heap g.root = some m' ∧ m'.pub = m.pub ∧
      (¬ c.childIsRoot g → m.parents = [] → m'.parents = []) := by
    rintro rfl
    exact ⟨rfl, rn, rn, hrn, hrn, rfl, fun _ hp => hp⟩
  cases c with
  | create id ps =>
    simp only [Call.run] at hrun
    by_cases hid : exists_ g id = true
    · apply hsame
      simp only [create, hid, if_true, Result.post, Option.some.injEq] at hrun
      exact hrun.symm
    · have hid2 : exists_ g id = false := by simpa using hid
      by_cases hps : ∀ p ∈ ps, exists_ g p = true
      · rw [create_eq h hid2 hps] at hrun
        cases hr : release [g.next] (reedge (createAlloc g id (ps.filterMap g.mapGraph))
            (linkC g.next (ps.filterMap g.mapGraph)) (fun _ s => s)) with
        | none => simp [hr, Result.post] at hrun
        | some g3 =>
          simp only [hr, Result.post, Option.some.injEq] at hrun
          subst hrun
          have hc := release_cascade hr
          have hG : Inv g3 := cascade_inv hc (create_linked_inv h ps hid2)
          obtain ⟨hroot, -, hheap, -⟩ := cascade_frame hc
          obtain ⟨m', hm'⟩ := hG.root_live
          rw [hroot] at hm'
          have hroot2 : g3.root = g.root := hroot
          obtain ⟨m1, hm1, rfl⟩ := reedge_heap_some (hheap _ _ hm')
          have hm1' : (createAlloc g id (ps.filterMap g.mapGraph)).heap g.root = some m1 := hm1
          rw [createAlloc_heap_old g id _ (live_ne_next h hrn), hrn] at hm1'
          cases hm1'
          exact ⟨hroot2, rn, _, hrn, hm', rfl, fun _ hp => hp⟩
      · apply hsame
        have hall : ¬ ps.all (fun p => exists_ g p) = true := by
          simpa [List.all_eq_true] using hps
        simp only [create, hid2, hall, if_false, Bool.false_eq_true, Result.post,
          Option.some.injEq] at hrun
        exact hrun.symm
  | add_citation ci pi =>
    simp only [Call.run] at hrun
    cases hc : g.mapGraph ci with
    | none =>
      apply hsame
      simp only [add_citation, hc, Result.post, Option.some.injEq] at hrun
      exact hrun.symm
    | some ca =>
      cases hp : g.mapGraph pi with
      | none =>
        apply hsame
        simp only [add_citation, hc, hp, Result.post, Option.some.injEq] at hrun
        exact hrun.symm
      | some pa =>
        obtain ⟨cn, hcn, -⟩ := h.map_live ci ca hc
        obtain ⟨pn, hpn, -⟩ := h.map_live pi pa hp
        rw [add_citation_eq hc hp hcn hpn] at hrun
        simp only [Result.post, Option.some.injEq] at hrun
        subst hrun
        refine ⟨rfl, rn, _, hrn, reedge_heap_of _ _ hrn, rfl, ?_⟩
        intro hnot hpar
        have hne : ca ≠ g.root := root_ne_of_id h hc hnot
        simp [addP, Ne.symm hne, hpar]
  | remove id =>
    simp only [Call.run] at hrun
    cases hid : g.mapGraph id with
    | none =>
      apply hsame
      simp only [remove, hid, Result.post, Option.some.injEq] at hrun
      exact hrun.symm
    | some a =>
      obtain ⟨n, ha, -⟩ := h.map_live id a hid
      by_cases hroot : a = g.root
      · apply hsame
        subst hroot
        simp only [remove, hid, ha, if_true, Result.post, Option.some.injEq] at hrun
        exact hrun.symm
      · cases hres : remove g id with
        | returned v g2 =>
          rw [hres] at hrun
          simp only [Result.post, Option.some.injEq] at hrun
          subst hrun
          have hc := remove_returned h hid ha hroot hres
          have hG : Inv g2 := cascade_inv hc (unlink_inv h ha hroot)
          obtain ⟨hroot', -, hheap, -⟩ := cascade_frame hc
          obtain ⟨m', hm'⟩ := hG.root_live
          rw [hroot'] at hm'
          have hroot2 : g2.root = g.root := hroot'
          obtain ⟨m1, hm1, rfl⟩ := reedge_heap_some (hheap _ _ hm')
          have hm1' : g.heap g.root = some m1 := hm1
          rw [hrn] at hm1'
          cases hm1'
          exact ⟨hroot2, rn, _, hrn, hm', rfl, fun _ hp => hp⟩
        | raised e g2 =>
          exfalso
          unfold remove at hres
          simp only [hid, ha, hroot, if_false] at hres
          cases hl : removeLoop a n.parents g with
          | none => simp [hl] at hres
          | some g1 =>
            simp only [hl] at hres
            cases hrel : release [a] g1 <;> simp [hrel] at hres
        | undefined => simp [hres, Result.post] at hrun
        | fuelExhausted => simp [hres, Result.post] at hrun
  | get_parents id =>
    simp only [Call.run] at hrun
    cases hid : g.mapGraph id with
    | none =>
      apply hsame
      simp only [get_parents, hid, Result.post, Option.some.injEq] at hrun
      exact hrun.symm
    | some a => exact hsame (get_parents_post hrun)

end CG

namespace CG

/-- C13. The root is never removed: in every state reachable from the graph
constructed with root identifier `r`, through calls of `create`,
`add_citation`, `remove` and `get_parents` that return or raise,
`get_root_id()` is `r` and `exists(r)` holds. -/
theorem root_never_removed (r : Id) (g : CitationGraph) (hr : ReachableFrom r g) :
    get_root_id g = some r ∧ exists_ g r = true := by
  induction hr with
  | construct => exact ⟨(construct_fresh r).1, (construct_fresh r).2.1⟩
  | @call g g' c hg hrun ih =>
    have h := reachable_inv (reachableFrom_reachable hg)
    have h' := reachable_inv (reachableFrom_reachable (ReachableFrom.call c hg hrun))
    obtain ⟨hroot, m, m', hm, hm', hpub, -⟩ := run_root h c hrun
    have hid : get_root_id g' = some r := by
      have h1 : get_root_id g = some m.pub := by simp [get_root_id, hm]
      have h2 : get_root_id g' = some m'.pub := by simp [get_root_id, hroot, hm']
      rw [h2, hpub, ← h1]
      exact ih.1
    obtain ⟨r', hr1, hr2⟩ := get_root_id_eq h'
    rw [hid] at hr1
    cases hr1
    exact ⟨hid, exists_iff.2 ⟨_, hr2⟩⟩

/-- Witness for C13: the state after `remove(1)` in the example, reached from
`construct 0`. -/
theorem root_never_removed_witness :
    get_root_id exRBC = some 0 ∧ exists_ exRBC 0 = true :=
  root_never_removed 0 exRBC
    (ReachableFrom.call (.remove 1)
      (ReachableFrom.call (.create 3 [1, 2])
        (ReachableFrom.call (.create 2 [0])
          (ReachableFrom.call (.create 1 [0]) ReachableFrom.construct rfl) rfl) rfl) rfl)

/-- C12 as stated fails: `add_citation(0, 1)` on the graph in which `1` cites the
root `0` is accepted and makes `1` a cited predecessor of the root. -/
theorem root_parents_counterexample :
    ¬ (∀ g : CitationGraph, Reachable g →
        ∃ r, get_root_id g = some r ∧ (get_parents g r).val = some []) := by
  intro hall
  have hreach : Reachable exRootCites := Reachable.add_citation 0 1 exRA_reachable rfl
  obtain ⟨r, hr1, hr2⟩ := hall exRootCites hreach
  have h0 : get_root_id exRootCites = some 0 := by decide
  rw [h0] at hr1
  cases hr1
  have h1 : (get_parents exRootCites 0).val = some [1] := by decide
  rw [h1] at hr2
  cases hr2

/-- C12, amended. In every state reached without calling `add_citation` with the
root as the child, `get_parents(get_root_id())` is empty. -/
theorem root_parents_empty (g : CitationGraph) (hr : ReachableRootUncited g) :
    ∃ r, get_root_id g = some r ∧ (get_parents g r).val = some [] := by
  have key : ∀ m, g.heap g.root = some m → m.parents = [] := by
    induction hr with
    | construct r =>
      intro m hm
      simp [construct, Node.new, Node.setIterator] at hm
      rw [← hm]
    | @call g g' c hg hnot hrun ih =>
      have h := reachable_inv (rootUncited_reachable hg)
      obtain ⟨hroot, m, m', hm, hm', -, hpar⟩ := run_root h c hrun
      intro k hk
      rw [hroot, hm'] at hk
      cases hk
      exact hpar hnot (ih m hm)
  have h := reachable_inv (rootUncited_reachable hr)
  obtain ⟨r, hr1, hr2⟩ := get_root_id_eq h
  obtain ⟨m, hm⟩ := h.root_live
  refine ⟨r, hr1, ?_⟩
  rw [get_parents_val hr2 hm, key m hm]
  rfl

/-- Witness for C12: the state after `remove(1)` in the example. -/
theorem root_parents_empty_witness :
    ∃ r, get_root_id exRBC = some r ∧ (get_parents exRBC r).val = some [] :=
  root_parents_empty exRBC
    (ReachableRootUncited.call (.remove 1)
      (ReachableRootUncited.call (.create 3 [1, 2])
        (ReachableRootUncited.call (.create 2 [0])
          (ReachableRootUncited.call (.create 1 [0]) (ReachableRootUncited.construct 0)
            (fun h => h) rfl) (fun h => h) rfl) (fun h => h) rfl) (fun h => h) rfl)

end CG

/-! ## Existence and reachability from the root -/

namespace CG

theorem exLeak_reachable : Reachable exLeak :=
  Reachable.remove 1
    (Reachable.add_citation 2 3
      (Reachable.create 3 [2] (Reachable.create 2 [1] exRA_reachable rfl) rfl) rfl) rfl

/-- C11 as stated fails: when `2` and `3` cite each other and the only path from
the root to them is cut by `remove(1)`, the two nodes keep each other alive;
`2` still exists but no chain of `get_children` steps leads from the root to
it. -/
theorem exists_unreachable_counterexample :
    ¬ (∀ g : CitationGraph, Reachable g →
        ∀ y, exists_ g y = true ↔ ReachableFromRoot g y) := by
  intro hall
  have h2 : ReachableFromRoot exLeak 2 := (hall exLeak exLeak_reachable 2).1 (by decide)
  obtain ⟨r, hr1, hpath⟩ := h2
  have h0 : get_root_id exLeak = some 0 := by decide
  rw [h0] at hr1
  cases hr1
  have key : ∀ y, Relation.ReflTransGen (ChildStep exLeak) 0 y → y = 0 := by
    intro y hy
    induction hy with
    | refl => rfl
    | tail _ hstep ih =>
      subst ih
      obtain ⟨l, hl, hmem⟩ := hstep
      have hc : (get_children exLeak 0).val = some [] := by decide
      rw [hc] at hl
      cases hl
      simp at hmem
  have := key 2 hpath
  simp at this

/-- C11, amended. In every reachable state every identifier that a chain of
`get_children` steps reaches from the root exists; and when no publication
reaches itself through such steps, every existing identifier is reached
from the root. -/
theorem exists_iff_reachable_acyclic (g : CitationGraph) (hr : Reachable g) :
    (∀ y, ReachableFromRoot g y → exists_ g y = true) ∧
      (Acyclic g → ∀ y, exists_ g y = true ↔ ReachableFromRoot g y) := by
  have h := reachable_inv hr
  have part1 : ∀ y, ReachableFromRoot g y → exists_ g y = true := by
    rintro y ⟨r, hr1, hpath⟩
    obtain ⟨r', hr1', hr2⟩ := get_root_id_eq h
    rw [hr1] at hr1'
    cases hr1'
    induction hpath with
    | refl => exact exists_iff.2 ⟨_, hr2⟩
    | tail _ hstep _ =>
      obtain ⟨a, b, -, hb, -⟩ := (childStep_iff h).1 hstep
      exact exists_iff.2 ⟨b, hb⟩
  refine ⟨part1, fun hac y => ⟨fun hy => ?_, part1 y⟩⟩
  obtain ⟨b, hb⟩ := exists_iff.1 hy
  obtain ⟨k, hk, -⟩ := h.map_live y b hb
  obtain ⟨rn, hrn⟩ := h.root_live
  have hpath := live_reachable h (edge_acyclic h hac) b k hk
  have hpath2 : Relation.ReflTransGen (ChildStep g) (pubAt g g.root) (pubAt g b) :=
    Relation.ReflTransGen.lift (pubAt g) (fun _ _ e => childStep_of_edge h e) hpath
  rw [pubAt_of_map h hb] at hpath2
  exact ⟨_, by simp [get_root_id, pubAt, hrn], hpath2⟩

/-- Witness for C11: the acyclic example graph. -/
theorem exists_iff_reachable_acyclic_witness :
    Acyclic exRABC ∧ ∀ y, exists_ exRABC y = true ↔ ReachableFromRoot exRABC y :=
  ⟨exRABC_acyclic, (exists_iff_reachable_acyclic exRABC exRABC_reachable).2 exRABC_acyclic⟩

end CG

/-! ## Failure of `remove` and of `add_citation` in mid-operation -/

namespace CG

/-- C16 fails on the code: `remove(3)` on the example graph, with `emplace_back`
throwing in the iteration for the second parent.  The node has been erased
from `get_children(1)`; the handler inserts it into its own `children`
(`backUp` holds pointers to the node, not to the parents), so after the
failure `get_children(1)` has lost `3` and `get_children(3)` lists `3`. -/
theorem remove_rollback_inserts_into_node :
    Reachable exRABC ∧ removeFailing exRABC 3 1 = .raised .bad_alloc exRemoveFailed ∧
      (get_children exRABC 1).val = some [3] ∧ (get_children exRemoveFailed 1).val = some [] ∧
      (get_children exRABC 3).val = some [] ∧ (get_children exRemoveFailed 3).val = some [3] :=
  ⟨exRABC_reachable, rfl, by decide, by decide, by decide, by decide⟩

theorem setErase_of_not_mem {a : Addr} {s : List Addr} (h : a ∉ s) : setErase a s = s := by
  unfold setErase
  rw [List.filter_eq_self]
  intro b hb
  simp only [decide_eq_true_eq]
  rintro rfl
  exact h hb

theorem setErase_orderedInsert (a : Addr) :
    ∀ s : List Addr, a ∉ s → setErase a (List.orderedInsert (fun x y => x ≤ y) a s) = s := by
  intro s
  induction s with
  | nil =>
    intro _
    simp [setErase]
  | cons b l ih =>
    intro h
    have hb : b ≠ a := fun e => h (e ▸ List.mem_cons_self _ _)
    have hl : a ∉ l := fun e => h (List.mem_cons_of_mem _ e)
    by_cases hab : a ≤ b
    · simp only [List.orderedInsert, hab, if_true]
      have h1 : setErase a (a :: b :: l) = setErase a (b :: l) := by
        unfold setErase
        rw [List.filter_cons_of_neg (by simp)]
      rw [h1]
      exact setErase_of_not_mem h
    · simp only [List.orderedInsert, hab, if_false]
      have h1 : setErase a (b :: List.orderedInsert (fun x y => x ≤ y) a l) =
          b :: setErase a (List.orderedInsert (fun x y => x ≤ y) a l) := by
        unfold setErase
        rw [List.filter_cons_of_pos (by simpa using hb)]
      rw [h1, ih hl]

theorem setErase_setInsert {a : Addr} {s : List Addr} (h : a ∉ s) :
    setErase a (setInsert a s) = s := by
  have e : setInsert a s = List.orderedInsert (fun x y => x ≤ y) a s := by
    simp [setInsert, h]
  rw [e]
  exact setErase_orderedInsert a s h

end CG

/-! ## Failure of `create` in mid-operation -/

namespace CG

theorem setErase_idem (a : Addr) (s : List Addr) : setErase a (setErase a s) = setErase a s := by
  simp [setErase]

theorem createRollback_eq (a : Addr) (ps : List Addr) :
    ∀ g : CitationGraph, (∀ p ∈ ps, ∃ n, g.heap p = some n) →
      createRollback a ps g = some (reedge g (unlinkC a ps) (fun _ s => s)) := by
  induction ps with
  | nil =>
    intro g _
    simp only [createRollback]
    congr 1
    refine graph_ext rfl rfl (fun x => ?_) rfl
    cases hx : g.heap x <;> simp [reedge, unlinkC, hx]
  | cons p ps ih =>
    intro g hg
    obtain ⟨n, hn⟩ := hg p (List.mem_cons_self _ _)
    simp only [createRollback, hn]
    rw [ih]
    · congr 1
      refine graph_ext rfl rfl (fun x => ?_) rfl
      by_cases hx : x = p
      · subst hx
        by_cases hps : x ∈ ps
        · simp [reedge, setNode, unlinkC, hn, hps, setErase_idem]
        · simp [reedge, setNode, unlinkC, hn, hps]
      · simp [reedge, setNode, unlinkC, Function.update, hx]
    · intro q hq
      by_cases hqp : q = p
      · subst hqp
        simp [setNode]
      · obtain ⟨m, hm⟩ := hg q (List.mem_cons_of_mem _ hq)
        exact ⟨m, by simp [setNode, Function.update, hqp, hm]⟩

/-- Releasing the only owner of a freshly allocated, unlinked node destroys the
node and deregisters it: what remains is the state before the allocation,
with the allocation counter moved. -/
theorem release_createAlloc {g : CitationGraph} (h : Inv g) {id : Id} {ptrs : List Addr}
    (hid : g.mapGraph id = none) (hptrs : ∀ p ∈ ptrs, ∃ n, g.heap p = some n) :
    release [g.next] (createAlloc g id ptrs) = some { g with next := g.next + 1 } := by
  have hL := createAlloc_inv h hid hptrs
  obtain ⟨rn, hrn⟩ := h.root_live
  have hfresh : g.heap g.next = none := by
    cases hn : g.heap g.next with
    | none => rfl
    | some n => exact absurd rfl (live_ne_next h hn)
  have hown : owned (createAlloc g id ptrs) [] g.next = false := by
    rw [Bool.eq_false_iff]
    intro ho
    rcases (owned_iff hL.bound [] g.next).1 ho with h1 | h1 | ⟨b, e⟩
    · exact live_ne_next h hrn h1
    · simp at h1
    · obtain ⟨-, m, hm, hc⟩ := createAlloc_edge.1 e
      obtain ⟨k, hk, -⟩ := h.child_live b m _ hm hc
      exact live_ne_next h hk rfl
  rw [release_unowned hown (createAlloc_heap_new g id ptrs)]
  simp only [createNode_children, List.append_nil, destroyLoop]
  congr 1
  refine graph_ext ?_ rfl (fun x => ?_) rfl
  · funext i
    by_cases hi : i = id
    · subst hi
      simp [deleteYourselfFromMap, createAlloc, createNode_seted, createNode_it, hid]
    · simp [deleteYourselfFromMap, createAlloc, createNode_seted, createNode_it,
        Function.update, hi]
  · by_cases hx : x = g.next
    · subst hx
      simp [deleteYourselfFromMap, hfresh]
    · simp [deleteYourselfFromMap, createAlloc, Function.update, hx]

/-- The state `create` leaves behind when linking parent number `k` fails. -/
theorem createFailing_eq {g : CitationGraph} (h : Inv g) {id : Id} {ps : List Id} {k : Nat}
    (hid : exists_ g id = false) (hps : ∀ p ∈ ps, exists_ g p = true)
    (hk : k < (ps.filterMap g.mapGraph).length) :
    createFailing g id ps k = .raised .bad_alloc { g with next := g.next + 1 } := by
  have hall : ps.all (fun p => exists_ g p) = true := by
    simpa [List.all_eq_true] using hps
  have hlive := ptrs_live h ps
  have hlive1 : ∀ p ∈ ps.filterMap g.mapGraph,
      ∃ n, (createAlloc g id (ps.filterMap g.mapGraph)).heap p = some n := by
    intro p hp
    obtain ⟨n, hn⟩ := hlive p hp
    exact ⟨n, by rw [createAlloc_heap_old g id _ (live_ne_next h hn)]; exact hn⟩
  have hget : (ps.filterMap g.mapGraph)[k]? = some ((ps.filterMap g.mapGraph)[k]) :=
    List.getElem?_eq_getElem hk
  have hpk : (ps.filterMap g.mapGraph)[k] ∈ ps.filterMap g.mapGraph := List.getElem_mem _
  unfold createFailing
  simp only [hid, hall, if_true, Bool.false_eq_true, if_false, hget]
  rw [linkChildren_eq _ _ _ (fun p hp => hlive1 p (List.mem_of_mem_take hp))]
  simp only
  obtain ⟨n1, hn1⟩ := hlive1 _ hpk
  rw [reedge_heap_of _ _ hn1]
  simp only
  rw [createRollback_eq _ _ _ (fun p hp => by
    obtain ⟨n, hn⟩ := hlive1 p hp
    exact ⟨_, reedge_heap_of _ _ hn⟩)]
  simp only
  have hback : reedge (reedge (createAlloc g id (ps.filterMap g.mapGraph))
      (linkC g.next ((ps.filterMap g.mapGraph).take k)) (fun _ s => s))
      (unlinkC g.next (ps.filterMap g.mapGraph)) (fun _ s => s) =
      createAlloc g id (ps.filterMap g.mapGraph) := by
    refine graph_ext rfl rfl (fun x => ?_) rfl
    cases hx : (createAlloc g id (ps.filterMap g.mapGraph)).heap x with
    | none => simp [reedge, hx]
    | some m =>
      have hnotin : g.next ∉ m.children := by
        intro hc
        obtain ⟨-, m2, hm2, hc2⟩ := createAlloc_edge.1 ⟨m, hx, hc⟩
        obtain ⟨k2, hk2, -⟩ := h.child_live x m2 _ hm2 hc2
        exact live_ne_next h hk2 rfl
      have hch : unlinkC g.next (ps.filterMap g.mapGraph) x
          (linkC g.next ((ps.filterMap g.mapGraph).take k) x m.children) = m.children := by
        by_cases hxp : x ∈ ps.filterMap g.mapGraph
        · by_cases hxt : x ∈ (ps.filterMap g.mapGraph).take k
          · simp [unlinkC, linkC, hxp, hxt, setErase_setInsert hnotin]
          · simp [unlinkC, linkC, hxp, hxt, setErase_of_not_mem hnotin]
        · have hxt : x ∉ (ps.filterMap g.mapGraph).take k :=
            fun e => hxp (List.mem_of_mem_take e)
          simp [unlinkC, linkC, hxp, hxt]
      simp [reedge, hx, hch]
  rw [hback, release_createAlloc h (exists_false_iff.1 hid) hlive]

end CG

namespace CG

theorem ptrs_length (g : CitationGraph) (ps : List Id) (hps : ∀ p ∈ ps, exists_ g p = true) :
    (ps.filterMap g.mapGraph).length = ps.length := by
  induction ps with
  | nil => rfl
  | cons p ps ih =>
    obtain ⟨a, ha⟩ := exists_iff.1 (hps p (List.mem_cons_self _ _))
    have := ih (fun q hq => hps q (List.mem_cons_of_mem _ hq))
    simp [List.filterMap_cons, ha, this]

/-- C17. In every reachable state, when `create(id, parents)` with a fresh `id` and
existing parents fails while inserting the new node into the successor set of
parent number `k`, the handler unlinks the node from the parents already
linked and the unwinding destroys and deregisters it: after the failure `id`
does not exist, and the existing identifiers and every `get_children` and
`get_parents` are as before the call; only the allocation counter of the
embedding has moved. -/
theorem create_rollback (g : CitationGraph) (id : Id) (ps : List Id) (k : Nat)
    (hr : Reachable g) (hid : exists_ g id = false) (hps : ∀ p ∈ ps, exists_ g p = true)
    (hk : k < ps.length) :
    ∃ g', createFailing g id ps k = .raised .bad_alloc g' ∧ exists_ g' id = false ∧
      (∀ x, exists_ g' x = exists_ g x) ∧
      (∀ x, (get_children g' x).val = (get_children g x).val) ∧
      (∀ x, (get_parents g' x).val = (get_parents g x).val) ∧
      g'.mapGraph = g.mapGraph ∧ g'.heap = g.heap ∧ g'.root = g.root :=
  ⟨{ g with next := g.next + 1 },
    createFailing_eq (reachable_inv hr) hid hps (by rw [ptrs_length g ps hps]; exact hk),
    hid, fun _ => rfl,
    fun x => (@val_congr g { g with next := g.next + 1 } rfl rfl x).1,
    fun x => (@val_congr g { g with next := g.next + 1 } rfl rfl x).2, rfl, rfl, rfl⟩

/-- Witness for C17: `create(3, [1, 2])` fails while linking into the second
parent. -/
theorem create_rollback_witness :
    ∃ g', createFailing exRAB 3 [1, 2] 1 = .raised .bad_alloc g' ∧ exists_ g' 3 = false ∧
      (∀ x, exists_ g' x = exists_ exRAB x) ∧
      (∀ x, (get_children g' x).val = (get_children exRAB x).val) ∧
      (∀ x, (get_parents g' x).val = (get_parents exRAB x).val) ∧
      g'.mapGraph = exRAB.mapGraph ∧ g'.heap = exRAB.heap ∧ g'.root = exRAB.root :=
  create_rollback exRAB 3 [1, 2] 1 exRAB_reachable (by decide) (by decide) (by decide)

end CG
